import Mathlib

/-!
# protoc-gen-apidoc: the schema-to-documentation transformer

A shallow embedding of `generator.go`.  The descriptor graph that protogen
hands to the generator is a pointer graph (and may be cyclic), so messages
live in a heap indexed by addresses and fields refer to messages by address.
Recursive traversals carry a fuel bound on the recursion depth; running out
of fuel stands for a recursion that has not returned yet, and a nil
dereference is a failure of its own.
-/

namespace ApiDoc

/-! ## Data model -/

/-- The field kinds of `protoreflect.Kind`; `Unknown n` stands for every
value of the underlying integer type that is not one of the declared
constants. -/
inductive Kind where
  | BoolKind | EnumKind
  | Int32Kind | Sint32Kind | Uint32Kind | Int64Kind | Sint64Kind | Uint64Kind
  | Sfixed32Kind | Fixed32Kind | FloatKind | Sfixed64Kind | Fixed64Kind | DoubleKind
  | StringKind | BytesKind | MessageKind | GroupKind
  | Unknown (n : Int)
  deriving DecidableEq, Repr

/-- The text of `protoreflect.Kind.String`. -/
def Kind.String : Kind → String
  | .BoolKind => "bool"
  | .EnumKind => "enum"
  | .Int32Kind => "int32"
  | .Sint32Kind => "sint32"
  | .Uint32Kind => "uint32"
  | .Int64Kind => "int64"
  | .Sint64Kind => "sint64"
  | .Uint64Kind => "uint64"
  | .Sfixed32Kind => "sfixed32"
  | .Fixed32Kind => "fixed32"
  | .FloatKind => "float"
  | .Sfixed64Kind => "sfixed64"
  | .Fixed64Kind => "fixed64"
  | .DoubleKind => "double"
  | .StringKind => "string"
  | .BytesKind => "bytes"
  | .MessageKind => "message"
  | .GroupKind => "group"
  | .Unknown n => "<unknown:" ++ toString n ++ ">"

/-- The address of a `protogen.Message` in the descriptor graph. -/
abbrev MsgRef := Nat

/-- The two comment texts of a `protogen.CommentSet` that the generator reads. -/
structure CommentSet where
  Leading : String
  Trailing : String
  deriving DecidableEq, Repr

/-- A `protogen.Field`: `Message` is the nested message pointer (nil for
scalar fields), `Parent` the pointer to the declaring message. -/
structure Field where
  JSONName : String
  Kind : Kind
  IsList : Bool
  IsMap : Bool
  Message : Option MsgRef
  Parent : MsgRef
  Comments : CommentSet
  deriving DecidableEq, Repr

/-- A `protogen.Message`: its fully-qualified name and its fields in
declaration order. -/
structure Message where
  FullName : String
  Fields : List Field
  deriving DecidableEq, Repr

/-- The descriptor graph: what every message pointer points to. -/
abbrev Heap := MsgRef → Message

/-- Why a traversal produced no result. -/
inductive Err where
  | outOfFuel
  | nilDeref
  deriving DecidableEq, Repr

/-- The dynamically typed example tree built by the synthesizer
(`interface{}` in Go).  A Go map is kept as a list of entries with pairwise
distinct keys, in order of first insertion; `float32 x` is the float of
whole value `x`, and the generator only ever builds `float32 0`. -/
inductive Value where
  | bool (b : Bool)
  | int (i : Int)
  | float32 (x : Int)
  | string (s : String)
  | list (xs : List Value)
  | map (kvs : List (String × Value))

/-- Go's `st[k] = v` on a map kept as an entry list. -/
def mapSet (st : List (String × Value)) (k : String) (v : Value) : List (String × Value) :=
  match st with
  | [] => [(k, v)]
  | (k', v') :: rest => if k' = k then (k, v) :: rest else (k', v') :: mapSet rest k v

/-- Go's `st[k]` lookup on a map kept as an entry list. -/
def mapGet (st : List (String × Value)) (k : String) : Option Value :=
  match st with
  | [] => none
  | (k', v') :: rest => if k' = k then some v' else mapGet rest k

/-! ## Example value synthesizer -/

/-- The body of `fieldToInterface`, with the recursive call to
`messageToInterface` passed in as `mti`. -/
def fieldToInterfaceWith (h : Heap) (mti : Message → Except Err Value) (field : Field) :
    Except Err Value :=
  match field.Kind with
  | .BoolKind => .ok (.bool false)
  | .EnumKind => .ok (.int 0)
  | .Int32Kind | .Sint32Kind | .Uint32Kind | .Int64Kind | .Sint64Kind | .Uint64Kind =>
    .ok (.int 0)
  | .Sfixed32Kind | .Fixed32Kind | .FloatKind | .Sfixed64Kind | .Fixed64Kind | .DoubleKind =>
    .ok (.float32 0)
  | .StringKind | .BytesKind => .ok (.string "")
  | .MessageKind | .GroupKind =>
    match field.Message with
    | none => .error .nilDeref
    | some r => mti (h r)
  | .Unknown _ => .ok (.map [])

/-- The test `field.Message != nil && field.Message.Desc.FullName() == message.Desc.FullName()`. -/
def isSelfTyped (h : Heap) (message : Message) (field : Field) : Bool :=
  match field.Message with
  | none => false
  | some r => (h r).FullName == message.FullName

/-- The value `fi` computed by one iteration of the loop of
`messageToInterface`. -/
def fieldExampleWith (h : Heap) (mti : Message → Except Err Value) (message : Message)
    (field : Field) : Except Err Value :=
  if isSelfTyped h message field then
    if field.IsList then .ok (.list []) else .ok (.map [])
  else if field.IsList then
    match fieldToInterfaceWith h mti field with
    | .ok item => .ok (.list [item])
    | .error e => .error e
  else if field.IsMap then .ok (.map [])
  else fieldToInterfaceWith h mti field

/-- One iteration of the loop of `messageToInterface`: compute `fi` and
store it under the field's JSON name. -/
def messageStep (h : Heap) (mti : Message → Except Err Value) (message : Message)
    (st : List (String × Value)) (field : Field) : Except Err (List (String × Value)) :=
  match fieldExampleWith h mti message field with
  | .ok fi => .ok (mapSet st field.JSONName fi)
  | .error e => .error e

/-- The loop of `messageToInterface` over the remaining fields. -/
def messageLoop (h : Heap) (mti : Message → Except Err Value) (message : Message) :
    List (String × Value) → List Field → Except Err (List (String × Value))
  | st, [] => .ok st
  | st, field :: rest =>
    match messageStep h mti message st field with
    | .ok st' => messageLoop h mti message st' rest
    | .error e => .error e

/-- The function `messageToInterface`; the fuel bounds the depth of the
recursion through `fieldToInterface`. -/
def messageToInterface (h : Heap) : Nat → Message → Except Err Value
  | 0, _ => .error .outOfFuel
  | fuel + 1, message =>
    match messageLoop h (messageToInterface h fuel) message [] message.Fields with
    | .ok st => .ok (.map st)
    | .error e => .error e

/-- The function `fieldToInterface`, whose call to `messageToInterface` has
`fuel` levels of recursion left. -/
def fieldToInterface (h : Heap) (fuel : Nat) (field : Field) : Except Err Value :=
  fieldToInterfaceWith h (messageToInterface h fuel) field

/-! ## Compact comment normalizer -/

/-- Go's `strings.TrimSuffix(s, "\n")` on the characters of a string. -/
def trimSuffixNewline (s : List Char) : List Char :=
  match s.reverse with
  | '\n' :: rest => rest.reverse
  | _ => s

/-- Go's `strings.Split(s, "\n")` on the characters of a string: the
pieces between line breaks, always at least one piece. -/
def splitLines : List Char → List (List Char)
  | [] => [[]]
  | c :: cs =>
    if c = '\n' then [] :: splitLines cs
    else
      match splitLines cs with
      | [] => [[c]]
      | l :: ls => (c :: l) :: ls

/-- Go's `strings.Join(lines, sep)` on the characters of strings. -/
def joinWith (sep : List Char) : List (List Char) → List Char
  | [] => []
  | [l] => l
  | l :: l' :: ls => l ++ sep ++ joinWith sep (l' :: ls)

/-- The method `protogen.Comments.String`: every line of the comment is
prefixed with `//` and ended with a line break; an empty comment stays empty. -/
def Comments.String (c : String) : String :=
  if c = "" then ""
  else
    String.mk (((splitLines (trimSuffixNewline c.data)).map
      (fun line => ['/', '/'] ++ line ++ ['\n'])).flatten)

/-- The cutset `"/ \t\r\n"` of the calls to `strings.Trim`. -/
def cutset : List Char := ['/', ' ', '\t', '\r', '\n']

/-- Go's `strings.Trim(s, cutset)` on the characters of a string. -/
def trimChars (cut : List Char) (s : List Char) : List Char :=
  ((s.dropWhile (fun c => cut.contains c)).reverse.dropWhile (fun c => cut.contains c)).reverse

/-- The function `getCompactComment`. -/
def getCompactComment (comment : CommentSet) : String :=
  let text := trimChars cutset (Comments.String comment.Leading).data
  let lines := splitLines text
  let newLines := lines.map (fun line => trimChars cutset line)
  let c := joinWith [' '] newLines
  String.mk (c ++ trimChars cutset (Comments.String comment.Trailing).data)

/-! ## Field table flattener -/

/-- The output buffer of a `protogen.GeneratedFile`, as the list of the
lines printed so far. -/
abbrev GeneratedFile := List String

/-- The method `g.P`: print one line. -/
def GeneratedFile.P (g : GeneratedFile) (line : String) : GeneratedFile :=
  g ++ [line]

/-- Go's `strings.Repeat(s, count)`. -/
def stringsRepeat (s : String) : Nat → String
  | 0 => ""
  | n + 1 => s ++ stringsRepeat s n

/-- The local `fieldName` of `printField`. -/
def fieldDisplayName (indent : Nat) (name : String) (field : Field) : String :=
  if indent > 0 then
    stringsRepeat ">" indent ++ " " ++ name ++ "." ++ field.JSONName
  else field.JSONName

/-- The local `kind` of `printField`. -/
def fieldKindLabel (field : Field) : String :=
  if field.IsList then "array" else field.Kind.String

/-- The local `row` of `printField`. -/
def fieldRow (indent : Nat) (name : String) (field : Field) : String :=
  "|" ++ fieldDisplayName indent name field ++ "|" ++ fieldKindLabel field ++ "|" ++
    getCompactComment field.Comments ++ "|"

/-- The test `field.Message != nil && field.Message.Desc.FullName() != field.Parent.Desc.FullName()`
of `printField`, giving the nested message to expand when it holds. -/
def expandTarget (h : Heap) (field : Field) : Option Message :=
  match field.Message with
  | none => none
  | some r => if (h r).FullName != (h field.Parent).FullName then some (h r) else none

/-- The loop of `printSubMessage`, with the call to `printField` passed in
as `pf`. -/
def printSubMessageWith
    (pf : GeneratedFile → Nat → String → Field → Except Err GeneratedFile)
    (g : GeneratedFile) (indent : Nat) (name : String) :
    List Field → Except Err GeneratedFile
  | [] => .ok g
  | field :: rest =>
    match pf g indent name field with
    | .ok g' => printSubMessageWith pf g' indent name rest
    | .error e => .error e

/-- The function `printField`; the fuel bounds the depth of the recursion
through `printSubMessage`. -/
def printField (h : Heap) :
    Nat → GeneratedFile → Nat → String → Field → Except Err GeneratedFile
  | 0, _, _, _, _ => .error .outOfFuel
  | fuel + 1, g, indent, name, field =>
    let g := g.P (fieldRow indent name field)
    match expandTarget h field with
    | some message =>
      printSubMessageWith (printField h fuel) g (indent + 1) field.JSONName message.Fields
    | none => .ok g

/-- The function `printSubMessage`. -/
def printSubMessage (h : Heap) (fuel : Nat) (g : GeneratedFile) (indent : Nat)
    (name : String) (message : Message) : Except Err GeneratedFile :=
  printSubMessageWith (printField h fuel) g indent name message.Fields

/-- The function `printMessage`: the two table-header lines, then every
field at depth 0. -/
def printMessage (h : Heap) (fuel : Nat) (g : GeneratedFile) (message : Message) :
    Except Err GeneratedFile :=
  let g := g.P "| 字段        | 类型        | 描述  |"
  let g := g.P "| ----------- |:----------:| -----|"
  printSubMessageWith (printField h fuel) g 0 "" message.Fields

/-! ## HTTP binding resolver -/

/-- The `pattern` oneof of `annotations.HttpRule`; `Custom` is the variant
that `parseMethod` does not recognize. -/
inductive Pattern where
  | Get (path : String)
  | Put (path : String)
  | Post (path : String)
  | Delete (path : String)
  | Patch (path : String)
  | Custom (kind : String) (path : String)
  deriving DecidableEq, Repr

/-- An `annotations.HttpRule`, with its `pattern` oneof possibly unset. -/
structure HttpRule where
  Pattern : Option Pattern
  deriving DecidableEq, Repr

/-- The getter `GetGet`. -/
def HttpRule.GetGet (r : HttpRule) : String :=
  match r.Pattern with
  | some (.Get p) => p
  | _ => ""

/-- The getter `GetPut`. -/
def HttpRule.GetPut (r : HttpRule) : String :=
  match r.Pattern with
  | some (.Put p) => p
  | _ => ""

/-- The getter `GetPost`. -/
def HttpRule.GetPost (r : HttpRule) : String :=
  match r.Pattern with
  | some (.Post p) => p
  | _ => ""

/-- The getter `GetDelete`. -/
def HttpRule.GetDelete (r : HttpRule) : String :=
  match r.Pattern with
  | some (.Delete p) => p
  | _ => ""

/-- The getter `GetPatch`. -/
def HttpRule.GetPatch (r : HttpRule) : String :=
  match r.Pattern with
  | some (.Patch p) => p
  | _ => ""

/-- A `protogen.Method`: `Http` is the value of the `google.api.http`
extension of the method's options, nil when the method carries none. -/
structure Method where
  FullName : String
  Leading : String
  Input : MsgRef
  Output : MsgRef
  IsStreamingClient : Bool
  IsStreamingServer : Bool
  Http : Option HttpRule
  deriving DecidableEq, Repr

/-- The struct `MethodDef`. -/
structure MethodDef where
  Method : Method
  httpMethod : String
  httpPath : String
  deriving DecidableEq, Repr

/-- The function `parseMethod`. -/
def parseMethod (m : Method) : MethodDef :=
  let httpMethod := "POST"
  let httpPath := m.FullName
  let (httpMethod, httpPath) :=
    match m.Http with
    | some httpRule =>
      match httpRule.Pattern with
      | some (.Get _) => ("GET", httpRule.GetGet)
      | some (.Put _) => ("PUT", httpRule.GetPut)
      | some (.Post _) => ("POST", httpRule.GetPost)
      | some (.Delete _) => ("DELETE", httpRule.GetDelete)
      | some (.Patch _) => ("DELETE", httpRule.GetPatch)
      | _ => (httpMethod, httpPath)
    | none => (httpMethod, httpPath)
  { Method := m, httpMethod := httpMethod, httpPath := httpPath }

/-! ## The calls of the flattener -/

/-- One call of `printField`: the nesting depth `indent`, the `name`
argument and the field. -/
structure Emission where
  depth : Nat
  parentName : String
  field : Field

/-- The row that the call prints. -/
def Emission.row (e : Emission) : String :=
  fieldRow e.depth e.parentName e.field

/-- The calls of `printField` made by the loop of `printSubMessage`, in
order, with the calls made by one `printField` passed in as `tf`. -/
def traceFieldsWith (tf : Nat → String → Field → Except Err (List Emission))
    (indent : Nat) (name : String) : List Field → Except Err (List Emission)
  | [] => .ok []
  | field :: rest =>
    match tf indent name field with
    | .ok es =>
      match traceFieldsWith tf indent name rest with
      | .ok es' => .ok (es ++ es')
      | .error e => .error e
    | .error e => .error e

/-- The calls of `printField` made by one call of `printField`, itself
included, in order. -/
def traceField (h : Heap) : Nat → Nat → String → Field → Except Err (List Emission)
  | 0, _, _, _ => .error .outOfFuel
  | fuel + 1, indent, name, field =>
    match expandTarget h field with
    | some message =>
      match traceFieldsWith (traceField h fuel) (indent + 1) field.JSONName message.Fields with
      | .ok es => .ok (⟨indent, name, field⟩ :: es)
      | .error e => .error e
    | none => .ok [⟨indent, name, field⟩]

/-- The call tree of `printMessage M`: the loop of `printMessage` calls
`printField` at depth 0 with an empty name on every field of `M`, and a call
on a field that is expanded calls `printField` one level deeper, with that
field's JSON name, on every field of the nested message. -/
inductive Emitted (h : Heap) (M : Message) : Nat → String → Field → Prop where
  | top (f : Field) : f ∈ M.Fields → Emitted h M 0 "" f
  | nested (d : Nat) (p : String) (f : Field) (m : Message) (c : Field) :
      Emitted h M d p f → expandTarget h f = some m → c ∈ m.Fields →
      Emitted h M (d + 1) f.JSONName c

/-! ## Example schemas -/

/-- The heap of the schema `Node{value: string, children: repeated Node}`:
the message `Node` sits at every address. -/
def nodeHeap : Heap := fun _ =>
  { FullName := "pkg.Node",
    Fields := [
      { JSONName := "value", Kind := .StringKind, IsList := false, IsMap := false,
        Message := none, Parent := 0, Comments := ⟨"", ""⟩ },
      { JSONName := "children", Kind := .MessageKind, IsList := true, IsMap := false,
        Message := some 0, Parent := 0, Comments := ⟨"", ""⟩ }] }

/-- The message `Node`. -/
def nodeMessage : Message := nodeHeap 0

/-- The field `children` of `Node`. -/
def nodeChildren : Field :=
  { JSONName := "children", Kind := .MessageKind, IsList := true, IsMap := false,
    Message := some 0, Parent := 0, Comments := ⟨"", ""⟩ }

/-- The heap of the schema `Path{points: repeated Point, tags: repeated string}`
with `Point{x: int32, y: int32}`: `Path` at address 0, `Point` elsewhere. -/
def pathHeap : Heap := fun r =>
  match r with
  | 0 =>
    { FullName := "pkg.Path",
      Fields := [
        { JSONName := "points", Kind := .MessageKind, IsList := true, IsMap := false,
          Message := some 1, Parent := 0, Comments := ⟨"", ""⟩ },
        { JSONName := "tags", Kind := .StringKind, IsList := true, IsMap := false,
          Message := none, Parent := 0, Comments := ⟨"", ""⟩ }] }
  | _ =>
    { FullName := "pkg.Point",
      Fields := [
        { JSONName := "x", Kind := .Int32Kind, IsList := false, IsMap := false,
          Message := none, Parent := 1, Comments := ⟨"", ""⟩ },
        { JSONName := "y", Kind := .Int32Kind, IsList := false, IsMap := false,
          Message := none, Parent := 1, Comments := ⟨"", ""⟩ }] }

/-- The field `points` of `Path`. -/
def pathPoints : Field :=
  { JSONName := "points", Kind := .MessageKind, IsList := true, IsMap := false,
    Message := some 1, Parent := 0, Comments := ⟨"", ""⟩ }

/-- The heap of the schema `Tree{kids: map<string, Tree>}`: `Tree` at
address 0 and the map-entry message `Tree.KidsEntry{key: string, value: Tree}`
elsewhere. -/
def treeHeap : Heap := fun r =>
  match r with
  | 0 =>
    { FullName := "pkg.Tree",
      Fields := [
        { JSONName := "kids", Kind := .MessageKind, IsList := false, IsMap := true,
          Message := some 1, Parent := 0, Comments := ⟨"", ""⟩ }] }
  | _ =>
    { FullName := "pkg.Tree.KidsEntry",
      Fields := [
        { JSONName := "key", Kind := .StringKind, IsList := false, IsMap := false,
          Message := none, Parent := 1, Comments := ⟨"", ""⟩ },
        { JSONName := "value", Kind := .MessageKind, IsList := false, IsMap := false,
          Message := some 0, Parent := 1, Comments := ⟨"", ""⟩ }] }

/-- The field `kids` of `Tree`. -/
def treeKids : Field :=
  { JSONName := "kids", Kind := .MessageKind, IsList := false, IsMap := true,
    Message := some 1, Parent := 0, Comments := ⟨"", ""⟩ }

/-- A field of kind `double` named `ratio`. -/
def ratioField : Field :=
  { JSONName := "ratio", Kind := .DoubleKind, IsList := false, IsMap := false,
    Message := none, Parent := 0, Comments := ⟨"", ""⟩ }

/-- The method `pkg.Svc.GetPoint`, which carries no HTTP annotation. -/
def getPointMethod : Method :=
  { FullName := "pkg.Svc.GetPoint", Leading := "", Input := 1, Output := 1,
    IsStreamingClient := false, IsStreamingServer := false, Http := none }

/-- The method `pkg.Svc.UpdatePoint`, annotated `patch: "/v1/points"`. -/
def updatePointMethod : Method :=
  { FullName := "pkg.Svc.UpdatePoint", Leading := "", Input := 1, Output := 1,
    IsStreamingClient := false, IsStreamingServer := false,
    Http := some { Pattern := some (.Patch "/v1/points") } }

/-- The method `pkg.Svc.ListPoints`, annotated `get: "/v1/points"`. -/
def listPointsMethod : Method :=
  { FullName := "pkg.Svc.ListPoints", Leading := "", Input := 1, Output := 0,
    IsStreamingClient := false, IsStreamingServer := false,
    Http := some { Pattern := some (.Get "/v1/points") } }

/-- Two calls of `printField` for the same field at the same depth: direct
children of the two expanded parents differ in the parent name only, deeper
calls are the same. -/
def SameBut (d : Nat) (p₁ p₂ : String) (e₁ e₂ : Emission) : Prop :=
  e₁.field = e₂.field ∧ e₁.depth = e₂.depth ∧
    ((e₁.depth = d ∧ e₁.parentName = p₁ ∧ e₂.parentName = p₂) ∨
      (d < e₁.depth ∧ e₁.parentName = e₂.parentName))

/-! ## Document assembler -/

/-- A `protogen.Service`: its methods in declaration order. -/
structure Service where
  Methods : List Method
  deriving DecidableEq, Repr

/-- A `protogen.File`: the prefix of the generated file names and the
services in declaration order. -/
structure File where
  GeneratedFilenamePrefix : String
  Services : List Service
  deriving DecidableEq, Repr

/-- The inner loop of `getAllMethods` over the methods of one service,
appending to the slice `methods`. -/
def getAllMethodsOfService (methods : List MethodDef) : List Method → List MethodDef
  | [] => methods
  | method :: rest =>
    if method.IsStreamingClient || method.IsStreamingServer then
      getAllMethodsOfService methods rest
    else
      getAllMethodsOfService (methods ++ [parseMethod method]) rest

/-- The outer loop of `getAllMethods` over the services. -/
def getAllMethodsOfServices (methods : List MethodDef) : List Service → List MethodDef
  | [] => methods
  | svc :: rest => getAllMethodsOfServices (getAllMethodsOfService methods svc.Methods) rest

/-- The function `getAllMethods`. -/
def getAllMethods (file : File) : List MethodDef :=
  getAllMethodsOfServices [] file.Services

/-- The local struct `WrappedResp` of `printWrappedMessageJson`, whose
fields are serialized under the keys `errCode`, `errMsg` and `data`. -/
structure WrappedResp where
  ErrCode : Int
  ErrMsg : String
  Data : Value

/-- What the generator hands to `json.MarshalIndent`: an example tree, or a
pointer to a `WrappedResp`. -/
inductive Marshalable where
  | value (msg : Value)
  | wrapped (resp : WrappedResp)

/-- The local `resp` of `printWrappedMessageJson`. -/
def wrappedResp (h : Heap) (fuel : Nat) (message : Message) : Except Err WrappedResp :=
  match messageToInterface h fuel message with
  | .ok msg => .ok { ErrCode := 0, ErrMsg := "ok", Data := msg }
  | .error e => .error e

/-- The function `printWrappedMessageJson`; `marshal` is
`json.MarshalIndent` with an empty prefix and a tab as indent, taken as
given. -/
def printWrappedMessageJson (marshal : Marshalable → String) (h : Heap) (fuel : Nat)
    (g : GeneratedFile) (message : Message) : Except Err GeneratedFile :=
  match wrappedResp h fuel message with
  | .ok resp =>
    let bs := marshal (.wrapped resp)
    let g := g.P "```json"
    let g := g.P bs
    .ok (g.P "```")
  | .error e => .error e

/-- The function `printMessageJson`. -/
def printMessageJson (marshal : Marshalable → String) (h : Heap) (fuel : Nat)
    (g : GeneratedFile) (message : Message) : Except Err GeneratedFile :=
  match messageToInterface h fuel message with
  | .ok msg =>
    let bs := marshal (.value msg)
    let g := g.P "```json"
    let g := g.P bs
    .ok (g.P "```")
  | .error e => .error e

/-- The statement `if method.httpMethod != "GET" { ... }` of the loop of
`GenerateFile`. -/
def printRequestJson (marshal : Marshalable → String) (h : Heap) (fuel : Nat)
    (g : GeneratedFile) (method : MethodDef) : Except Err GeneratedFile :=
  if method.httpMethod != "GET" then
    let g := g.P "#### JSON"
    let g := g.P ""
    match printMessageJson marshal h fuel g (h method.Method.Input) with
    | .ok g => .ok (g.P "")
    | .error e => .error e
  else .ok g

/-- The body of the loop of `GenerateFile`: everything printed for one
method. -/
def printMethod (marshal : Marshalable → String) (h : Heap) (fuel : Nat)
    (g : GeneratedFile) (method : MethodDef) : Except Err GeneratedFile :=
  let g := g.P ("## " ++ method.Method.FullName)
  let g := g.P ""
  let g := g.P method.Method.Leading
  let g := g.P ("`" ++ method.httpMethod ++ " " ++ method.httpPath ++ "`")
  let g := g.P ""
  let g := g.P "### Request"
  let g := g.P ""
  match printMessage h fuel g (h method.Method.Input) with
  | .error e => .error e
  | .ok g =>
    let g := g.P ""
    match printRequestJson marshal h fuel g method with
    | .error e => .error e
    | .ok g =>
      let g := g.P "### Response payload"
      let g := g.P ""
      match printMessage h fuel g (h method.Method.Output) with
      | .error e => .error e
      | .ok g =>
        let g := g.P ""
        let g := g.P "#### JSON"
        let g := g.P ""
        match printWrappedMessageJson marshal h fuel g (h method.Method.Output) with
        | .error e => .error e
        | .ok g => .ok (g.P "")

/-- The loop of `GenerateFile` over the methods. -/
def printMethods (marshal : Marshalable → String) (h : Heap) (fuel : Nat) :
    GeneratedFile → List MethodDef → Except Err GeneratedFile
  | g, [] => .ok g
  | g, method :: rest =>
    match printMethod marshal h fuel g method with
    | .ok g' => printMethods marshal h fuel g' rest
    | .error e => .error e

/-- The function `GenerateFile`, as the content of the generated file, one
entry for each call of `g.P`. -/
def GenerateFile (marshal : Marshalable → String) (h : Heap) (fuel : Nat) (file : File) :
    Except Err GeneratedFile :=
  let g : GeneratedFile := []
  let methods := getAllMethods file
  let g := g.P (file.GeneratedFilenamePrefix ++ " API DOC")
  let g := g.P "======"
  let g := g.P "[toc]"
  printMethods marshal h fuel g methods

/-! ## Well-formed schemas and shapes of example trees -/

/-- A well-formed descriptor graph: the parent of every field is the
message that lists it, and every field of kind message or group has a nested
message. -/
def WellFormed (h : Heap) : Prop :=
  ∀ (r : MsgRef) (f : Field), f ∈ (h r).Fields →
    h f.Parent = h r ∧ ((f.Kind = .MessageKind ∨ f.Kind = .GroupKind) → f.Message ≠ none)

/-- The message-type graph has an edge from the message at `r` to the nested
message of each of its fields.  `rank` decreases along every edge between
messages of different full names: the graph has no cycle apart from edges
from a type to itself, and no endless chain. -/
def RankedBy (h : Heap) (rank : MsgRef → Nat) : Prop :=
  ∀ (r : MsgRef) (f : Field) (r' : MsgRef), f ∈ (h r).Fields → f.Message = some r' →
    (h r').FullName ≠ (h r).FullName → rank r' < rank r

mutual
/-- Every list in the tree has at most one element and every scalar leaf is
`false`, `0`, `0.0` or the empty string. -/
def Value.isZeroShaped : Value → Bool
  | .bool b => b == false
  | .int i => i == 0
  | .float32 x => x == 0
  | .string s => s == ""
  | .list xs => decide (xs.length ≤ 1) && Value.allZeroShaped xs
  | .map kvs => Value.entriesZeroShaped kvs
/-- All elements of a list are zero-shaped. -/
def Value.allZeroShaped : List Value → Bool
  | [] => true
  | x :: xs => x.isZeroShaped && Value.allZeroShaped xs
/-- All values of the entries of a map are zero-shaped. -/
def Value.entriesZeroShaped : List (String × Value) → Bool
  | [] => true
  | (_, v) :: rest => v.isZeroShaped && Value.entriesZeroShaped rest
end

/-- The heap of the schema `Segment{from: Point, to: Point}` with
`Point{x: int32, y: int32}`: `Segment` at address 0, `Point` elsewhere. -/
def segmentHeap : Heap := fun r =>
  match r with
  | 0 =>
    { FullName := "pkg.Segment",
      Fields := [
        { JSONName := "from", Kind := .MessageKind, IsList := false, IsMap := false,
          Message := some 1, Parent := 0, Comments := ⟨"", ""⟩ },
        { JSONName := "to", Kind := .MessageKind, IsList := false, IsMap := false,
          Message := some 1, Parent := 0, Comments := ⟨"", ""⟩ }] }
  | _ =>
    { FullName := "pkg.Point",
      Fields := [
        { JSONName := "x", Kind := .Int32Kind, IsList := false, IsMap := false,
          Message := none, Parent := 1, Comments := ⟨"", ""⟩ },
        { JSONName := "y", Kind := .Int32Kind, IsList := false, IsMap := false,
          Message := none, Parent := 1, Comments := ⟨"", ""⟩ }] }

/-- The field `from` of `Segment`. -/
def segmentFrom : Field :=
  { JSONName := "from", Kind := .MessageKind, IsList := false, IsMap := false,
    Message := some 1, Parent := 0, Comments := ⟨"", ""⟩ }

/-- The field `to` of `Segment`. -/
def segmentTo : Field :=
  { JSONName := "to", Kind := .MessageKind, IsList := false, IsMap := false,
    Message := some 1, Parent := 0, Comments := ⟨"", ""⟩ }

/-- The heap of the schema `Ping{pong: Pong}` with `Pong{ping: Ping}`:
`Ping` at address 0, `Pong` elsewhere. -/
def pingHeap : Heap := fun r =>
  match r with
  | 0 =>
    { FullName := "pkg.Ping",
      Fields := [
        { JSONName := "pong", Kind := .MessageKind, IsList := false, IsMap := false,
          Message := some 1, Parent := 0, Comments := ⟨"", ""⟩ }] }
  | _ =>
    { FullName := "pkg.Pong",
      Fields := [
        { JSONName := "ping", Kind := .MessageKind, IsList := false, IsMap := false,
          Message := some 0, Parent := 1, Comments := ⟨"", ""⟩ }] }

/-- The field `pong` of `Ping`. -/
def pingPong : Field :=
  { JSONName := "pong", Kind := .MessageKind, IsList := false, IsMap := false,
    Message := some 1, Parent := 0, Comments := ⟨"", ""⟩ }

/-- The field `ping` of `Pong`. -/
def pongPing : Field :=
  { JSONName := "ping", Kind := .MessageKind, IsList := false, IsMap := false,
    Message := some 0, Parent := 1, Comments := ⟨"", ""⟩ }

/-- The field `value` of the map-entry message `Tree.KidsEntry`. -/
def treeEntryValue : Field :=
  { JSONName := "value", Kind := .MessageKind, IsList := false, IsMap := false,
    Message := some 0, Parent := 1, Comments := ⟨"", ""⟩ }

/-- A comment set with an empty leading comment and a trailing comment of
two lines. -/
def twoLineTrailing : CommentSet := ⟨"", " first\n second\n"⟩

/-- The method `pkg.Svc.WatchPoints`, which streams its responses. -/
def watchPointsMethod : Method :=
  { FullName := "pkg.Svc.WatchPoints", Leading := "", Input := 1, Output := 1,
    IsStreamingClient := false, IsStreamingServer := true, Http := none }

/-- A file with the one service `pkg.Svc{GetPoint, WatchPoints, ListPoints}`. -/
def pointsFile : File :=
  { GeneratedFilenamePrefix := "points",
    Services := [{ Methods := [getPointMethod, watchPointsMethod, listPointsMethod] }] }

/-- A stand-in for `json.MarshalIndent` that tells the two kinds of
argument apart. -/
def tagMarshal : Marshalable → String
  | .value _ => "value"
  | .wrapped _ => "wrapped"

/-- A rank for the schema of `Path` and `Point`: `Path` above `Point`. -/
def pathRank : MsgRef → Nat := fun r => if r = 0 then 1 else 0

/-- The list-valued field `fooBar` of `Dup`. -/
def dupList : Field :=
  { JSONName := "fooBar", Kind := .StringKind, IsList := true, IsMap := false,
    Message := none, Parent := 0, Comments := ⟨"", ""⟩ }

/-- The heap of the schema `Dup{repeated string fooBar; int32 fooBar}`, a
message with two fields of the same JSON name: `Dup` sits at every address. -/
def dupHeap : Heap := fun _ =>
  { FullName := "pkg.Dup",
    Fields := [
      dupList,
      { JSONName := "fooBar", Kind := .Int32Kind, IsList := false, IsMap := false,
        Message := none, Parent := 0, Comments := ⟨"", ""⟩ }] }

/-- The map-valued field `fooBar` of `DupMap`. -/
def dupMapField : Field :=
  { JSONName := "fooBar", Kind := .MessageKind, IsList := false, IsMap := true,
    Message := some 1, Parent := 0, Comments := ⟨"", ""⟩ }

/-- The heap of the schema `DupMap{map<string, string> fooBar; int32 fooBar}`,
a message with two fields of the same JSON name: `DupMap` at address 0 and
the map-entry message `DupMap.FooBarEntry{key: string, value: string}`
elsewhere. -/
def dupMapHeap : Heap := fun r =>
  match r with
  | 0 =>
    { FullName := "pkg.DupMap",
      Fields := [
        dupMapField,
        { JSONName := "fooBar", Kind := .Int32Kind, IsList := false, IsMap := false,
          Message := none, Parent := 0, Comments := ⟨"", ""⟩ }] }
  | _ =>
    { FullName := "pkg.DupMap.FooBarEntry",
      Fields := [
        { JSONName := "key", Kind := .StringKind, IsList := false, IsMap := false,
          Message := none, Parent := 1, Comments := ⟨"", ""⟩ },
        { JSONName := "value", Kind := .StringKind, IsList := false, IsMap := false,
          Message := none, Parent := 1, Comments := ⟨"", ""⟩ }] }

/-! ## Maps as entry lists -/

theorem mapGet_mapSet_self (st : List (String × Value)) (k : String) (v : Value) :
    mapGet (mapSet st k v) k = some v := by
  induction st with
  | nil => simp [mapSet, mapGet]
  | cons e rest ih =>
    obtain ⟨k', v'⟩ := e
    by_cases hk : k' = k
    · simp [mapSet, mapGet, hk]
    · simp [mapSet, mapGet, hk, ih]

theorem mapGet_mapSet_ne (st : List (String × Value)) (k k₂ : String) (v : Value)
    (hne : k ≠ k₂) : mapGet (mapSet st k v) k₂ = mapGet st k₂ := by
  induction st with
  | nil => simp [mapSet, mapGet, hne]
  | cons e rest ih =>
    obtain ⟨k', v'⟩ := e
    by_cases hk : k' = k
    · subst hk
      simp [mapSet, mapGet, hne]
    · by_cases hk₂ : k' = k₂
      · subst hk₂
        simp [mapSet, mapGet, hk]
      · simp [mapSet, mapGet, hk, hk₂, ih]

/-! ## The loop of the synthesizer -/

theorem messageLoop_keeps (h : Heap) (mti : Message → Except Err Value) (M : Message)
    (fs : List Field) (st st' : List (String × Value)) (k : String)
    (hrun : messageLoop h mti M st fs = .ok st') (hk : k ∉ fs.map Field.JSONName) :
    mapGet st' k = mapGet st k := by
  induction fs generalizing st with
  | nil =>
    simp [messageLoop] at hrun
    rw [hrun]
  | cons f rest ih =>
    simp only [messageLoop, messageStep] at hrun
    simp only [List.map_cons, List.mem_cons, not_or] at hk
    cases hfi : fieldExampleWith h mti M f with
    | error e => simp [hfi] at hrun
    | ok fi =>
      simp only [hfi] at hrun
      rw [ih _ hrun hk.2]
      exact mapGet_mapSet_ne st f.JSONName k fi (fun hc => hk.1 hc.symm)

theorem messageLoop_stores (h : Heap) (mti : Message → Except Err Value) (M : Message)
    (fs : List Field) (st st' : List (String × Value)) (f : Field)
    (hrun : messageLoop h mti M st fs = .ok st')
    (hnd : (fs.map Field.JSONName).Nodup) (hf : f ∈ fs) :
    ∃ fi, fieldExampleWith h mti M f = .ok fi ∧ mapGet st' f.JSONName = some fi := by
  induction fs generalizing st with
  | nil => simp at hf
  | cons f₀ rest ih =>
    simp only [messageLoop, messageStep] at hrun
    simp only [List.map_cons, List.nodup_cons] at hnd
    cases hfi : fieldExampleWith h mti M f₀ with
    | error e => simp [hfi] at hrun
    | ok fi =>
      simp only [hfi] at hrun
      rcases List.mem_cons.mp hf with heq | hmem
      · subst heq
        refine ⟨fi, hfi, ?_⟩
        rw [messageLoop_keeps h mti M rest _ st' f.JSONName hrun hnd.1]
        exact mapGet_mapSet_self st f.JSONName fi
      · exact ih _ hrun hnd.2 hmem

theorem messageToInterface_stores (h : Heap) (fuel : Nat) (M : Message) (v : Value)
    (f : Field) (hrun : messageToInterface h (fuel + 1) M = .ok v)
    (hnd : (M.Fields.map Field.JSONName).Nodup) (hf : f ∈ M.Fields) :
    ∃ st fi, v = .map st ∧ fieldExampleWith h (messageToInterface h fuel) M f = .ok fi ∧
      mapGet st f.JSONName = some fi := by
  simp only [messageToInterface] at hrun
  cases hloop : messageLoop h (messageToInterface h fuel) M [] M.Fields with
  | error e => simp [hloop] at hrun
  | ok st =>
    simp only [hloop, Except.ok.injEq] at hrun
    obtain ⟨fi, hfi, hget⟩ := messageLoop_stores h _ M M.Fields [] st f hloop hnd hf
    exact ⟨st, fi, hrun.symm, hfi, hget⟩

theorem messageLoop_stores_last (h : Heap) (mti : Message → Except Err Value) (M : Message)
    (pre post : List Field) (f : Field) (st st' : List (String × Value))
    (hrun : messageLoop h mti M st (pre ++ f :: post) = .ok st')
    (hlast : ∀ f' ∈ post, f'.JSONName ≠ f.JSONName) :
    ∃ fi, fieldExampleWith h mti M f = .ok fi ∧ mapGet st' f.JSONName = some fi := by
  induction pre generalizing st with
  | nil =>
    simp only [List.nil_append, messageLoop, messageStep] at hrun
    cases hfi : fieldExampleWith h mti M f with
    | error e => simp [hfi] at hrun
    | ok fi =>
      simp only [hfi] at hrun
      refine ⟨fi, rfl, ?_⟩
      have hk : f.JSONName ∉ post.map Field.JSONName := by
        intro hmem
        obtain ⟨f', hf', hname⟩ := List.mem_map.mp hmem
        exact hlast f' hf' hname
      rw [messageLoop_keeps h mti M post _ st' f.JSONName hrun hk]
      exact mapGet_mapSet_self st f.JSONName fi
  | cons f₀ rest ih =>
    simp only [List.cons_append, messageLoop, messageStep] at hrun
    cases h₀ : fieldExampleWith h mti M f₀ with
    | error e => simp [h₀] at hrun
    | ok fi₀ =>
      simp only [h₀] at hrun
      exact ih _ hrun

theorem messageToInterface_stores_last (h : Heap) (fuel : Nat) (M : Message) (v : Value)
    (pre post : List Field) (f : Field) (hrun : messageToInterface h (fuel + 1) M = .ok v)
    (hsplit : M.Fields = pre ++ f :: post)
    (hlast : ∀ f' ∈ post, f'.JSONName ≠ f.JSONName) :
    ∃ st fi, v = .map st ∧ fieldExampleWith h (messageToInterface h fuel) M f = .ok fi ∧
      mapGet st f.JSONName = some fi := by
  simp only [messageToInterface] at hrun
  cases hloop : messageLoop h (messageToInterface h fuel) M [] M.Fields with
  | error e => simp [hloop] at hrun
  | ok st =>
    simp only [hloop, Except.ok.injEq] at hrun
    rw [hsplit] at hloop
    obtain ⟨fi, hfi, hget⟩ := messageLoop_stores_last h _ M pre post f [] st hloop hlast
    exact ⟨st, fi, hrun.symm, hfi, hget⟩

/-! ## Self-typed fields in the synthesizer -/

/-- C1: for a message `M` with distinct field JSON names and a field `f` of
`M` whose nested message has the full name of `M`, the loop body yields an
empty list (list-valued `f`) or an empty mapping (otherwise) whatever the
recursive call `mti` would do, so the type of `f` is not recursed into; any
result of `messageToInterface M` maps the JSON name of `f` to that value; and
for `Node{value: string, children: repeated Node}` the result is exactly
`{"value": "", "children": []}`. -/
theorem messageToInterface_self_typed (h : Heap) (M : Message) (f : Field) (r : MsgRef)
    (hnd : (M.Fields.map Field.JSONName).Nodup) (hf : f ∈ M.Fields)
    (hmsg : f.Message = some r) (hname : (h r).FullName = M.FullName) :
    (∀ mti : Message → Except Err Value,
        fieldExampleWith h mti M f = .ok (if f.IsList then .list [] else .map [])) ∧
    (∀ (fuel : Nat) (v : Value), messageToInterface h fuel M = .ok v →
        ∃ st, v = .map st ∧
          mapGet st f.JSONName = some (if f.IsList then .list [] else .map [])) ∧
    messageToInterface nodeHeap 1 nodeMessage =
      .ok (.map [("value", .string ""), ("children", .list [])]) := by
  have hbody : ∀ mti : Message → Except Err Value,
      fieldExampleWith h mti M f = .ok (if f.IsList then .list [] else .map []) := by
    intro mti
    have hself : isSelfTyped h M f = true := by simp [isSelfTyped, hmsg, hname]
    cases hl : f.IsList <;> simp [fieldExampleWith, hself, hl]
  refine ⟨hbody, ?_, rfl⟩
  intro fuel v hrun
  cases fuel with
  | zero => simp [messageToInterface] at hrun
  | succ n =>
    obtain ⟨st, fi, hv, hfi, hget⟩ := messageToInterface_stores h n M v f hrun hnd hf
    rw [hbody] at hfi
    simp only [Except.ok.injEq] at hfi
    exact ⟨st, hv, by rw [hget, hfi]⟩

/-- C1 at `Node.children`: the result of `messageToInterface` on `Node` maps
`children` to the empty list. -/
theorem messageToInterface_self_typed_witness :
    (∀ (fuel : Nat) (v : Value), messageToInterface nodeHeap fuel nodeMessage = .ok v →
        ∃ st, v = .map st ∧ mapGet st "children" = some (.list [])) ∧
    messageToInterface nodeHeap 1 nodeMessage =
      .ok (.map [("value", .string ""), ("children", .list [])]) :=
  ⟨(messageToInterface_self_typed nodeHeap nodeMessage nodeChildren 0
      (by decide) (by decide) rfl rfl).2.1,
   (messageToInterface_self_typed nodeHeap nodeMessage nodeChildren 0
      (by decide) (by decide) rfl rfl).2.2⟩

/-! ## List-valued, scalar and map-valued fields in the synthesizer -/

theorem isSelfTyped_false (h : Heap) (M : Message) (f : Field)
    (hns : ∀ r, f.Message = some r → (h r).FullName ≠ M.FullName) :
    isSelfTyped h M f = false := by
  unfold isSelfTyped
  cases hm : f.Message with
  | none => rfl
  | some r => simpa using hns r hm

/-- C6, as stated, fails when a later field has the same JSON name: on
`Dup{repeated string fooBar; int32 fooBar}` the result is `{"fooBar": 0}`, so
the list-valued field `fooBar` is not mapped to a one-element list. -/
theorem list_field_overwritten_by_later_field :
    messageToInterface dupHeap 1 (dupHeap 0) = .ok (.map [("fooBar", .int 0)]) ∧
    ¬ (∀ (h : Heap) (fuel : Nat) (M : Message) (v : Value) (f : Field),
        f ∈ M.Fields → f.IsList = true →
        (∀ r, f.Message = some r → (h r).FullName ≠ M.FullName) →
        messageToInterface h (fuel + 1) M = .ok v →
        ∃ st item, v = .map st ∧ mapGet st f.JSONName = some (.list [item])) := by
  refine ⟨rfl, ?_⟩
  intro hclaim
  obtain ⟨st, item, hv, hget⟩ :=
    hclaim dupHeap 0 (dupHeap 0) (.map [("fooBar", .int 0)]) dupList
      (by decide) rfl (by intro r hr; cases hr) rfl
  simp only [Value.map.injEq] at hv
  subst hv
  simp [mapGet, dupList] at hget

/-- C6, amended: for a message `M` and a list-valued field `f` of `M` that
is not typed as `M` itself and whose JSON name no later field of `M` carries,
the loop body yields the one-element list holding the result of
`fieldToInterface f` whenever that call returns, whatever the recursive call
`mti` does; for a field of scalar kind it always returns, and the element is
a scalar placeholder; and a result of `messageToInterface M` maps the JSON
name of `f` to that one-element list, whose element is, for kind message or
group, the synthesized `messageToInterface` of the nested message. -/
theorem messageToInterface_list_field (h : Heap) (M : Message) (f : Field)
    (pre post : List Field) (hsplit : M.Fields = pre ++ f :: post)
    (hlast : ∀ f' ∈ post, f'.JSONName ≠ f.JSONName)
    (hlist : f.IsList = true)
    (hns : ∀ r, f.Message = some r → (h r).FullName ≠ M.FullName) :
    (∀ mti : Message → Except Err Value,
      fieldExampleWith h mti M f =
        (fieldToInterfaceWith h mti f).map (fun item => .list [item])) ∧
    (f.Kind ≠ .MessageKind → f.Kind ≠ .GroupKind →
      ∃ item ∈ [Value.bool false, .int 0, .float32 0, .string "", .map []],
        ∀ mti : Message → Except Err Value,
          fieldExampleWith h mti M f = .ok (.list [item])) ∧
    (∀ (fuel : Nat) (v : Value), messageToInterface h (fuel + 1) M = .ok v →
      ∃ st item, v = .map st ∧ mapGet st f.JSONName = some (.list [item]) ∧
        fieldToInterface h fuel f = .ok item ∧
        ((f.Kind = .MessageKind ∨ f.Kind = .GroupKind) →
          ∃ r, f.Message = some r ∧ messageToInterface h fuel (h r) = .ok item) ∧
        (f.Kind ≠ .MessageKind → f.Kind ≠ .GroupKind →
          item ∈ [Value.bool false, .int 0, .float32 0, .string "", .map []])) := by
  have hself := isSelfTyped_false h M f hns
  have hbody : ∀ mti : Message → Except Err Value,
      fieldExampleWith h mti M f =
        (fieldToInterfaceWith h mti f).map (fun item => .list [item]) := by
    intro mti
    simp only [fieldExampleWith, hself, hlist, if_true, Bool.false_eq_true, if_false]
    cases fieldToInterfaceWith h mti f <;> simp [Except.map]
  have hscalar : ∀ (mti : Message → Except Err Value) (item : Value),
      f.Kind ≠ .MessageKind → f.Kind ≠ .GroupKind →
      fieldToInterfaceWith h mti f = .ok item →
      item ∈ [Value.bool false, .int 0, .float32 0, .string "", .map []] := by
    intro mti item hk₁ hk₂ hitem
    unfold fieldToInterfaceWith at hitem
    cases hkind : f.Kind <;> simp only [hkind] at hitem hk₁ hk₂ <;>
      first
        | exact absurd rfl hk₁
        | exact absurd rfl hk₂
        | (simp only [Except.ok.injEq] at hitem
           subst hitem
           simp)
  refine ⟨hbody, ?_, ?_⟩
  · intro hk₁ hk₂
    have hret : ∃ item, ∀ mti : Message → Except Err Value,
        fieldToInterfaceWith h mti f = .ok item := by
      unfold fieldToInterfaceWith
      cases hkind : f.Kind <;> simp only [hkind] at hk₁ hk₂ ⊢ <;>
        first
          | exact absurd rfl hk₁
          | exact absurd rfl hk₂
          | exact ⟨_, fun _ => rfl⟩
    obtain ⟨item, hitem⟩ := hret
    refine ⟨item, hscalar (fun _ => .error .outOfFuel) item hk₁ hk₂ (hitem _), ?_⟩
    intro mti
    rw [hbody, hitem]
    rfl
  · intro fuel v hrun
    obtain ⟨st, fi, hv, hfi, hget⟩ :=
      messageToInterface_stores_last h fuel M v pre post f hrun hsplit hlast
    rw [hbody] at hfi
    cases hitem : fieldToInterfaceWith h (messageToInterface h fuel) f with
    | error e => simp [hitem, Except.map] at hfi
    | ok item =>
      simp only [hitem, Except.map, Except.ok.injEq] at hfi
      refine ⟨st, item, hv, by rw [hget, hfi], hitem, ?_,
        fun hk₁ hk₂ => hscalar _ item hk₁ hk₂ hitem⟩
      intro hk
      unfold fieldToInterfaceWith at hitem
      rcases hk with hk | hk <;> simp only [hk] at hitem <;>
        · cases hm : f.Message with
          | none => simp [hm] at hitem
          | some r =>
            simp only [hm] at hitem
            exact ⟨r, rfl, hitem⟩

/-- C6 at `Path.points`, the first field of `Path`: the example of `Path`
maps `points` to the one-element list holding the example of `Point`. -/
theorem messageToInterface_list_field_witness :
    messageToInterface pathHeap 2 (pathHeap 0) =
      .ok (.map [("points", .list [.map [("x", .int 0), ("y", .int 0)]]),
        ("tags", .list [.string ""])]) ∧
    ∃ st item, Value.map [("points", .list [.map [("x", .int 0), ("y", .int 0)]]),
        ("tags", .list [.string ""])] = .map st ∧
      mapGet st "points" = some (.list [item]) ∧
      fieldToInterface pathHeap 1 pathPoints = .ok item ∧
      ((pathPoints.Kind = .MessageKind ∨ pathPoints.Kind = .GroupKind) →
        ∃ r, pathPoints.Message = some r ∧
          messageToInterface pathHeap 1 (pathHeap r) = .ok item) ∧
      (pathPoints.Kind ≠ .MessageKind → pathPoints.Kind ≠ .GroupKind →
        item ∈ [Value.bool false, .int 0, .float32 0, .string "", .map []]) :=
  ⟨rfl, (messageToInterface_list_field pathHeap (pathHeap 0) pathPoints []
      [{ JSONName := "tags", Kind := .StringKind, IsList := true, IsMap := false,
         Message := none, Parent := 0, Comments := ⟨"", ""⟩ }]
      rfl (by decide) rfl (by intro r hr; cases hr; decide)).2.2 1
      (.map [("points", .list [.map [("x", .int 0), ("y", .int 0)]]),
        ("tags", .list [.string ""])]) rfl⟩

/-- C7: `fieldToInterface` gives `false` for kind bool, integer `0` for
kind enum and for the six integer kinds, floating-point `0.0` for float,
double and the four fixed kinds, the empty string for string and bytes, the
result of `messageToInterface` on the nested message for message and group,
and an empty mapping for any other kind. -/
theorem fieldToInterface_by_kind (h : Heap) (fuel : Nat) (f : Field) :
    (f.Kind = .BoolKind → fieldToInterface h fuel f = .ok (.bool false)) ∧
    (f.Kind = .EnumKind → fieldToInterface h fuel f = .ok (.int 0)) ∧
    (f.Kind ∈ [Kind.Int32Kind, .Sint32Kind, .Uint32Kind, .Int64Kind, .Sint64Kind,
        .Uint64Kind] → fieldToInterface h fuel f = .ok (.int 0)) ∧
    (f.Kind ∈ [Kind.FloatKind, .DoubleKind, .Fixed32Kind, .Sfixed32Kind, .Fixed64Kind,
        .Sfixed64Kind] → fieldToInterface h fuel f = .ok (.float32 0)) ∧
    (f.Kind ∈ [Kind.StringKind, .BytesKind] → fieldToInterface h fuel f = .ok (.string "")) ∧
    (f.Kind ∈ [Kind.MessageKind, .GroupKind] → ∀ r, f.Message = some r →
        fieldToInterface h fuel f = messageToInterface h fuel (h r)) ∧
    (∀ n, f.Kind = .Unknown n → fieldToInterface h fuel f = .ok (.map [])) := by
  unfold fieldToInterface fieldToInterfaceWith
  refine ⟨?_, ?_, ?_, ?_, ?_, ?_, ?_⟩
  · intro hk; simp [hk]
  · intro hk; simp [hk]
  · intro hk
    simp only [List.mem_cons, List.mem_singleton, List.not_mem_nil, or_false] at hk
    rcases hk with hk | hk | hk | hk | hk | hk <;> simp [hk]
  · intro hk
    simp only [List.mem_cons, List.mem_singleton, List.not_mem_nil, or_false] at hk
    rcases hk with hk | hk | hk | hk | hk | hk <;> simp [hk]
  · intro hk
    simp only [List.mem_cons, List.mem_singleton, List.not_mem_nil, or_false] at hk
    rcases hk with hk | hk <;> simp [hk]
  · intro hk r hm
    simp only [List.mem_cons, List.mem_singleton, List.not_mem_nil, or_false] at hk
    rcases hk with hk | hk <;> simp [hk, hm]
  · intro n hk; simp [hk]

/-- C7 at a field of kind double and at `Path.points`: the placeholder of
the first is `0.0`, that of the second is the example of `Point`. -/
theorem fieldToInterface_by_kind_witness :
    fieldToInterface pathHeap 1 ratioField = .ok (.float32 0) ∧
    fieldToInterface pathHeap 1 pathPoints = messageToInterface pathHeap 1 (pathHeap 1) :=
  ⟨(fieldToInterface_by_kind pathHeap 1 ratioField).2.2.2.1 (by decide),
   (fieldToInterface_by_kind pathHeap 1 pathPoints).2.2.2.2.2.1 (by decide) 1 rfl⟩

/-- C8, as stated, fails when a later field has the same JSON name: on
`DupMap{map<string, string> fooBar; int32 fooBar}` the result is
`{"fooBar": 0}`, so the map-valued field `fooBar` is not mapped to an empty
mapping. -/
theorem map_field_overwritten_by_later_field :
    messageToInterface dupMapHeap 1 (dupMapHeap 0) = .ok (.map [("fooBar", .int 0)]) ∧
    ¬ (∀ (h : Heap) (fuel : Nat) (M : Message) (v : Value) (f : Field),
        f ∈ M.Fields → f.IsMap = true → f.IsList = false →
        (∀ r, f.Message = some r → (h r).FullName ≠ M.FullName) →
        messageToInterface h fuel M = .ok v →
        ∃ st, v = .map st ∧ mapGet st f.JSONName = some (.map [])) := by
  refine ⟨rfl, ?_⟩
  intro hclaim
  obtain ⟨st, hv, hget⟩ :=
    hclaim dupMapHeap 1 (dupMapHeap 0) (.map [("fooBar", .int 0)]) dupMapField
      (by decide) rfl rfl (by intro r hr; cases hr; decide) rfl
  simp only [Value.map.injEq] at hv
  subst hv
  simp [mapGet, dupMapField] at hget

/-- C8, amended: for a message `M` and a map-valued field `f` of `M` that
is neither list-valued nor typed as `M` itself and whose JSON name no later
field of `M` carries, the loop body yields an empty mapping whatever the
recursive call `mti` would do, so the value type of the map is not recursed
into, and any result of `messageToInterface M` maps the JSON name of `f` to
an empty mapping. -/
theorem messageToInterface_map_field (h : Heap) (M : Message) (f : Field)
    (pre post : List Field) (hsplit : M.Fields = pre ++ f :: post)
    (hlast : ∀ f' ∈ post, f'.JSONName ≠ f.JSONName)
    (hmap : f.IsMap = true) (hlist : f.IsList = false)
    (hns : ∀ r, f.Message = some r → (h r).FullName ≠ M.FullName) :
    (∀ mti : Message → Except Err Value, fieldExampleWith h mti M f = .ok (.map [])) ∧
    (∀ (fuel : Nat) (v : Value), messageToInterface h fuel M = .ok v →
        ∃ st, v = .map st ∧ mapGet st f.JSONName = some (.map [])) := by
  have hbody : ∀ mti : Message → Except Err Value,
      fieldExampleWith h mti M f = .ok (.map []) := by
    intro mti
    simp [fieldExampleWith, isSelfTyped_false h M f hns, hmap, hlist]
  refine ⟨hbody, ?_⟩
  intro fuel v hrun
  cases fuel with
  | zero => simp [messageToInterface] at hrun
  | succ n =>
    obtain ⟨st, fi, hv, hfi, hget⟩ :=
      messageToInterface_stores_last h n M v pre post f hrun hsplit hlast
    rw [hbody] at hfi
    simp only [Except.ok.injEq] at hfi
    exact ⟨st, hv, by rw [hget, hfi]⟩

/-- C8 at `Tree.kids`, the only field of `Tree`, a map whose value type is
`Tree` again: the example of `Tree` is returned without any recursion and
maps `kids` to an empty mapping. -/
theorem messageToInterface_map_field_witness :
    messageToInterface treeHeap 1 (treeHeap 0) = .ok (.map [("kids", .map [])]) ∧
    ∃ st, Value.map [("kids", .map [])] = .map st ∧ mapGet st "kids" = some (.map []) :=
  ⟨rfl, (messageToInterface_map_field treeHeap (treeHeap 0) treeKids [] [] rfl
      (by intro f' hf'; cases hf') rfl rfl (by intro r hr; cases hr; decide)).2 1 _ rfl⟩

/-! ## The flattener prints the rows of its calls -/

theorem printSubMessageWith_trace
    (pf : GeneratedFile → Nat → String → Field → Except Err GeneratedFile)
    (tf : Nat → String → Field → Except Err (List Emission))
    (hpf : ∀ g d p f, pf g d p f = (tf d p f).map (fun es => g ++ es.map Emission.row))
    (g : GeneratedFile) (d : Nat) (p : String) (fs : List Field) :
    printSubMessageWith pf g d p fs =
      (traceFieldsWith tf d p fs).map (fun es => g ++ es.map Emission.row) := by
  induction fs generalizing g with
  | nil => simp [printSubMessageWith, traceFieldsWith, Except.map]
  | cons f rest ih =>
    simp only [printSubMessageWith, traceFieldsWith, hpf]
    cases htf : tf d p f with
    | error e => simp [Except.map]
    | ok es =>
      simp only [Except.map]
      rw [ih]
      cases hrest : traceFieldsWith tf d p rest with
      | error e => simp [Except.map]
      | ok es' => simp [Except.map, List.append_assoc]

theorem printField_trace (h : Heap) (fuel : Nat) (g : GeneratedFile) (d : Nat) (p : String)
    (f : Field) :
    printField h fuel g d p f =
      (traceField h fuel d p f).map (fun es => g ++ es.map Emission.row) := by
  induction fuel generalizing g d p f with
  | zero => simp [printField, traceField, Except.map]
  | succ n ih =>
    simp only [printField, traceField]
    cases hx : expandTarget h f with
    | none => simp [Except.map, GeneratedFile.P, Emission.row]
    | some m =>
      simp only
      rw [printSubMessageWith_trace (printField h n) (traceField h n) ih]
      cases hsub : traceFieldsWith (traceField h n) (d + 1) f.JSONName m.Fields with
      | error e => simp [Except.map]
      | ok es => simp [Except.map, GeneratedFile.P, Emission.row, List.append_assoc]

theorem printSubMessage_trace (h : Heap) (fuel : Nat) (g : GeneratedFile) (d : Nat)
    (p : String) (fs : List Field) :
    printSubMessageWith (printField h fuel) g d p fs =
      (traceFieldsWith (traceField h fuel) d p fs).map (fun es => g ++ es.map Emission.row) :=
  printSubMessageWith_trace (printField h fuel) (traceField h fuel)
    (printField_trace h fuel) g d p fs

theorem traceFieldsWith_blocks (tf : Nat → String → Field → Except Err (List Emission))
    (d : Nat) (p : String) (fs : List Field) (es : List Emission)
    (hrun : traceFieldsWith tf d p fs = .ok es) :
    ∃ bs : List (List Emission), es = bs.flatten ∧
      List.Forall₂ (fun f b => tf d p f = .ok b) fs bs := by
  induction fs generalizing es with
  | nil =>
    simp only [traceFieldsWith, Except.ok.injEq] at hrun
    exact ⟨[], by simp [← hrun], List.Forall₂.nil⟩
  | cons f rest ih =>
    simp only [traceFieldsWith] at hrun
    cases htf : tf d p f with
    | error e => simp [htf] at hrun
    | ok b =>
      simp only [htf] at hrun
      cases hrest : traceFieldsWith tf d p rest with
      | error e => simp [hrest] at hrun
      | ok es' =>
        simp only [hrest, Except.ok.injEq] at hrun
        obtain ⟨bs, hbs, hall⟩ := ih es' hrest
        exact ⟨b :: bs, by simp [← hrun, hbs], List.Forall₂.cons htf hall⟩

theorem traceFieldsWith_all (tf : Nat → String → Field → Except Err (List Emission))
    (P : Emission → Prop) (d : Nat) (p : String) (fs : List Field) (es : List Emission)
    (hrun : traceFieldsWith tf d p fs = .ok es)
    (htf : ∀ f ∈ fs, ∀ b, tf d p f = .ok b → ∀ e ∈ b, P e) : ∀ e ∈ es, P e := by
  induction fs generalizing es with
  | nil =>
    simp only [traceFieldsWith, Except.ok.injEq] at hrun
    simp [← hrun]
  | cons f rest ih =>
    simp only [traceFieldsWith] at hrun
    cases hb : tf d p f with
    | error e => simp [hb] at hrun
    | ok b =>
      simp only [hb] at hrun
      cases hrest : traceFieldsWith tf d p rest with
      | error e => simp [hrest] at hrun
      | ok es' =>
        simp only [hrest, Except.ok.injEq] at hrun
        intro e he
        rw [← hrun] at he
        rcases List.mem_append.mp he with he | he
        · exact htf f (List.mem_cons_self f rest) b hb e he
        · exact ih es' hrest (fun f' hf' => htf f' (List.mem_cons_of_mem f hf')) e he

theorem traceField_emitted (h : Heap) (M : Message) (fuel : Nat) (d : Nat) (p : String)
    (f : Field) (es : List Emission) (hrun : traceField h fuel d p f = .ok es)
    (hf : Emitted h M d p f) : ∀ e ∈ es, Emitted h M e.depth e.parentName e.field := by
  induction fuel generalizing d p f es with
  | zero => simp [traceField] at hrun
  | succ n ih =>
    simp only [traceField] at hrun
    cases hx : expandTarget h f with
    | none =>
      simp only [hx, Except.ok.injEq] at hrun
      intro e he
      rw [← hrun] at he
      simp only [List.mem_singleton] at he
      subst he
      exact hf
    | some m =>
      simp only [hx] at hrun
      cases hsub : traceFieldsWith (traceField h n) (d + 1) f.JSONName m.Fields with
      | error e => simp [hsub] at hrun
      | ok sub =>
        simp only [hsub, Except.ok.injEq] at hrun
        intro e he
        rw [← hrun] at he
        rcases List.mem_cons.mp he with he | he
        · subst he
          exact hf
        · exact traceFieldsWith_all (traceField h n)
            (fun e => Emitted h M e.depth e.parentName e.field) (d + 1) f.JSONName m.Fields
            sub hsub
            (fun c hc b hb => ih (d + 1) f.JSONName c b hb (Emitted.nested d p f m c hf hx hc))
            e he

theorem stringsRepeat_marker (n : Nat) :
    stringsRepeat ">" n = String.mk (List.replicate n '>') := by
  induction n with
  | zero => rfl
  | succ k ih =>
    simp only [stringsRepeat, ih, List.replicate_succ]
    rfl

theorem fieldDisplayName_eq (d : Nat) (p : String) (f : Field) :
    fieldDisplayName d p f =
      if d = 0 then f.JSONName
      else String.mk (List.replicate d '>') ++ " " ++ p ++ "." ++ f.JSONName := by
  unfold fieldDisplayName
  rw [stringsRepeat_marker]
  cases d with
  | zero => simp
  | succ k => simp

/-! ## Self-typed fields, row order and display names in the flattener -/

/-- C2: `printField` on a field whose nested message has the full name of
the field's parent message prints exactly one row, the row of the field
itself, at every depth and whether the field is list-valued or not; and
flattening `Node{value: string, children: repeated Node}` prints the two
header lines and exactly the two rows `value` and `children`. -/
theorem printField_self_typed (h : Heap) (fuel : Nat) (g : GeneratedFile) (d : Nat)
    (p : String) (f : Field) (r : MsgRef) (hmsg : f.Message = some r)
    (hname : (h r).FullName = (h f.Parent).FullName) :
    printField h (fuel + 1) g d p f = .ok (g ++ [fieldRow d p f]) ∧
    printMessage nodeHeap 1 [] nodeMessage =
      .ok ["| 字段        | 类型        | 描述  |", "| ----------- |:----------:| -----|",
        "|value|string||", "|children|array||"] := by
  refine ⟨?_, rfl⟩
  have hx : expandTarget h f = none := by simp [expandTarget, hmsg, hname]
  simp [printField, hx, GeneratedFile.P]

/-- C2 at `Node.children`, printed one level deep under a field `kids`: the
only line printed is the row of `children`. -/
theorem printField_self_typed_witness :
    printField nodeHeap 1 [] 1 "kids" nodeChildren = .ok ([] ++ ["|> kids.children|array||"]) :=
  (printField_self_typed nodeHeap 0 [] 1 "kids" nodeChildren 0 rfl rfl).1

theorem printSubMessageWith_blocks (h : Heap) (fuel : Nat) (g g' : GeneratedFile) (d : Nat)
    (p : String) (fs : List Field)
    (hrun : printSubMessageWith (printField h fuel) g d p fs = .ok g') :
    ∃ blocks : List (List String), g' = g ++ blocks.flatten ∧
      List.Forall₂ (fun f block => printField h fuel [] d p f = .ok block) fs blocks := by
  rw [printSubMessage_trace] at hrun
  cases htr : traceFieldsWith (traceField h fuel) d p fs with
  | error e => simp [htr, Except.map] at hrun
  | ok es =>
    simp only [htr, Except.map, Except.ok.injEq] at hrun
    obtain ⟨bs, hbs, hall⟩ := traceFieldsWith_blocks (traceField h fuel) d p fs es htr
    refine ⟨bs.map (fun b => b.map Emission.row), ?_, ?_⟩
    · rw [← hrun, hbs, List.map_flatten]
    · rw [List.forall₂_map_right_iff]
      refine hall.imp ?_
      intro f b hb
      rw [printField_trace, hb]
      simp [Except.map]

/-- C9: when `printMessage M` returns, what it printed is the two header
lines followed by the concatenation, over the fields of `M` in declaration
order, of the block of rows that `printField` prints for that field alone;
at every depth the block of a field is the field's own row, followed, when
the field is expanded, by everything `printSubMessage` prints for the nested
message, which is again the concatenation of the blocks of the nested
fields in declaration order. -/
theorem printMessage_depth_first (h : Heap) (fuel : Nat) (g g' : GeneratedFile)
    (M : Message) (hrun : printMessage h fuel g M = .ok g') :
    (∃ blocks : List (List String),
      g' = g ++ ["| 字段        | 类型        | 描述  |", "| ----------- |:----------:| -----|"]
        ++ blocks.flatten ∧
      List.Forall₂ (fun f block => printField h fuel [] 0 "" f = .ok block) M.Fields blocks) ∧
    (∀ (n d : Nat) (p : String) (f : Field) (block : List String),
      printField h (n + 1) [] d p f = .ok block →
      match expandTarget h f with
      | none => block = [fieldRow d p f]
      | some m => ∃ sub, block = fieldRow d p f :: sub ∧
          printSubMessage h n [] (d + 1) f.JSONName m = .ok sub) ∧
    (∀ (n d : Nat) (p : String) (m : Message) (sub : List String),
      printSubMessage h n [] d p m = .ok sub →
      ∃ blocks : List (List String), sub = blocks.flatten ∧
        List.Forall₂ (fun f block => printField h n [] d p f = .ok block) m.Fields blocks) := by
  refine ⟨?_, ?_, ?_⟩
  · unfold printMessage at hrun
    obtain ⟨blocks, hg, hall⟩ := printSubMessageWith_blocks h fuel _ g' 0 "" M.Fields hrun
    refine ⟨blocks, ?_, hall⟩
    rw [hg]
    simp [GeneratedFile.P]
  · intro n d p f block hblock
    simp only [printField] at hblock
    cases hx : expandTarget h f with
    | none =>
      simp only [hx, Except.ok.injEq] at hblock
      simp [← hblock, GeneratedFile.P]
    | some m =>
      simp only [hx] at hblock
      obtain ⟨blocks, hg, hall⟩ :=
        printSubMessageWith_blocks h n _ block (d + 1) f.JSONName m.Fields hblock
      refine ⟨blocks.flatten, by simp [hg, GeneratedFile.P], ?_⟩
      unfold printSubMessage
      rw [printSubMessage_trace] at hblock ⊢
      cases htr : traceFieldsWith (traceField h n) (d + 1) f.JSONName m.Fields with
      | error e => simp [htr, Except.map] at hblock
      | ok es =>
        simp only [htr, Except.map, Except.ok.injEq] at hblock
        rw [hg] at hblock
        simp only [GeneratedFile.P, List.nil_append, List.append_cancel_left_eq] at hblock
        simp [Except.map, hblock]
  · intro n d p m sub hsub
    unfold printSubMessage at hsub
    obtain ⟨blocks, hg, hall⟩ := printSubMessageWith_blocks h n [] sub d p m.Fields hsub
    exact ⟨blocks, by simpa using hg, hall⟩

/-- C9 at `Path`: the rows of `points` and of its nested `x` and `y` come
first, in that order, then the row of `tags`. -/
theorem printMessage_depth_first_witness :
    ∃ blocks : List (List String),
      ["| 字段        | 类型        | 描述  |", "| ----------- |:----------:| -----|",
        "|points|array||", "|> points.x|int32||", "|> points.y|int32||", "|tags|array||"] =
        [] ++ ["| 字段        | 类型        | 描述  |", "| ----------- |:----------:| -----|"]
          ++ blocks.flatten ∧
      List.Forall₂ (fun f block => printField pathHeap 2 [] 0 "" f = .ok block)
        (pathHeap 0).Fields blocks :=
  (printMessage_depth_first pathHeap 2 [] _ (pathHeap 0) rfl).1

/-- C10: when `printMessage M` returns, the rows it printed after the two
header lines are, in order, the rows of a list of calls of `printField`
that all belong to the call tree of `printMessage M`; the display name of a
call at depth 0 is the field's JSON name, and that of a call at depth
`d >= 1` is `d` copies of `>`, one space, the JSON name of the parent field
whose expansion made the call, a dot, and the field's own JSON name. -/
theorem printMessage_display_names (h : Heap) (fuel : Nat) (g g' : GeneratedFile)
    (M : Message) (hrun : printMessage h fuel g M = .ok g') :
    ∃ es : List Emission,
      g' = g ++ ["| 字段        | 类型        | 描述  |", "| ----------- |:----------:| -----|"]
        ++ es.map (fun e =>
          "|" ++ (if e.depth = 0 then e.field.JSONName
                  else String.mk (List.replicate e.depth '>') ++ " " ++ e.parentName ++ "."
                    ++ e.field.JSONName)
            ++ "|" ++ fieldKindLabel e.field ++ "|" ++ getCompactComment e.field.Comments
            ++ "|") ∧
      ∀ e ∈ es, Emitted h M e.depth e.parentName e.field := by
  unfold printMessage at hrun
  rw [printSubMessage_trace] at hrun
  cases htr : traceFieldsWith (traceField h fuel) 0 "" M.Fields with
  | error e => simp [htr, Except.map] at hrun
  | ok es =>
    simp only [htr, Except.map, Except.ok.injEq] at hrun
    refine ⟨es, ?_, ?_⟩
    · rw [← hrun]
      simp only [GeneratedFile.P, List.append_assoc, List.singleton_append]
      congr 3
      funext e
      simp only [Emission.row, fieldRow, fieldDisplayName_eq]
    · exact traceFieldsWith_all (traceField h fuel)
        (fun e => Emitted h M e.depth e.parentName e.field) 0 "" M.Fields es htr
        (fun f hf b hb => traceField_emitted h M fuel 0 "" f b hb (Emitted.top f hf))

/-- C10 at `Path`: the nested rows of `points` are named `> points.x` and
`> points.y`, the top-level rows `points` and `tags`. -/
theorem printMessage_display_names_witness :
    ∃ es : List Emission,
      ["| 字段        | 类型        | 描述  |", "| ----------- |:----------:| -----|",
        "|points|array||", "|> points.x|int32||", "|> points.y|int32||", "|tags|array||"] =
        [] ++ ["| 字段        | 类型        | 描述  |", "| ----------- |:----------:| -----|"]
          ++ es.map (fun e =>
            "|" ++ (if e.depth = 0 then e.field.JSONName
                    else String.mk (List.replicate e.depth '>') ++ " " ++ e.parentName ++ "."
                      ++ e.field.JSONName)
              ++ "|" ++ fieldKindLabel e.field ++ "|" ++ getCompactComment e.field.Comments
              ++ "|") ∧
      ∀ e ∈ es, Emitted pathHeap (pathHeap 0) e.depth e.parentName e.field :=
  printMessage_display_names pathHeap 2 [] _ (pathHeap 0) rfl

/-! ## HTTP binding resolver -/

/-- C3: on the method `pkg.Svc.UpdatePoint`, annotated with the PATCH
variant and the path `/v1/points`, `parseMethod` keeps the path but
resolves the verb to `DELETE`, not to `PATCH`. -/
theorem parseMethod_patch_resolves_to_delete :
    (parseMethod updatePointMethod).httpMethod = "DELETE" ∧
    (parseMethod updatePointMethod).httpPath = "/v1/points" ∧
    (parseMethod updatePointMethod).httpMethod ≠ "PATCH" := by
  refine ⟨rfl, rfl, ?_⟩
  decide

/-- C4: for a method without HTTP annotation, or whose annotation has its
pattern unset or set to the variant `parseMethod` does not recognize,
`parseMethod` returns the verb `POST` and the method's full name as path;
`pkg.Svc.GetPoint` without annotation resolves to
`("POST", "pkg.Svc.GetPoint")`. -/
theorem parseMethod_fallback (m : Method)
    (hm : m.Http = none ∨ ∃ r, m.Http = some r ∧
      (r.Pattern = none ∨ ∃ kind path, r.Pattern = some (.Custom kind path))) :
    parseMethod m = { Method := m, httpMethod := "POST", httpPath := m.FullName } ∧
    parseMethod getPointMethod =
      { Method := getPointMethod, httpMethod := "POST", httpPath := "pkg.Svc.GetPoint" } := by
  refine ⟨?_, rfl⟩
  rcases hm with hm | ⟨r, hm, hp | ⟨kind, path, hp⟩⟩
  · simp [parseMethod, hm]
  · simp [parseMethod, hm, hp]
  · simp [parseMethod, hm, hp]

/-- C4 at a method whose annotation carries the custom variant. -/
theorem parseMethod_fallback_witness :
    parseMethod { getPointMethod with Http := some { Pattern := some (.Custom "HEAD" "/v1") } } =
      { Method := { getPointMethod with Http := some { Pattern := some (.Custom "HEAD" "/v1") } },
        httpMethod := "POST", httpPath := "pkg.Svc.GetPoint" } :=
  (parseMethod_fallback
    { getPointMethod with Http := some { Pattern := some (.Custom "HEAD" "/v1") } }
    (Or.inr ⟨_, rfl, Or.inr ⟨"HEAD", "/v1", rfl⟩⟩)).1

/-- C5: for a method annotated with the GET, PUT, POST or DELETE variant
carrying the path `p`, `parseMethod` returns the verb of the same name and
the path `p` unchanged. -/
theorem parseMethod_verbatim (m : Method) (r : HttpRule) (p : String)
    (hm : m.Http = some r) :
    (r.Pattern = some (.Get p) →
      parseMethod m = { Method := m, httpMethod := "GET", httpPath := p }) ∧
    (r.Pattern = some (.Put p) →
      parseMethod m = { Method := m, httpMethod := "PUT", httpPath := p }) ∧
    (r.Pattern = some (.Post p) →
      parseMethod m = { Method := m, httpMethod := "POST", httpPath := p }) ∧
    (r.Pattern = some (.Delete p) →
      parseMethod m = { Method := m, httpMethod := "DELETE", httpPath := p }) := by
  refine ⟨?_, ?_, ?_, ?_⟩ <;>
    · intro hp
      simp [parseMethod, hm, hp, HttpRule.GetGet, HttpRule.GetPut, HttpRule.GetPost,
        HttpRule.GetDelete]

/-- C5 at `pkg.Svc.ListPoints`, annotated `get: "/v1/points"`. -/
theorem parseMethod_verbatim_witness :
    parseMethod listPointsMethod =
      { Method := listPointsMethod, httpMethod := "GET", httpPath := "/v1/points" } :=
  (parseMethod_verbatim listPointsMethod _ "/v1/points" rfl).1 rfl

/-! ## Sibling fields of one nested type -/

theorem traceField_depth_ge (h : Heap) (fuel : Nat) (d : Nat) (p : String) (f : Field)
    (es : List Emission) (hrun : traceField h fuel d p f = .ok es) :
    ∀ e ∈ es, d ≤ e.depth := by
  induction fuel generalizing d p f es with
  | zero => simp [traceField] at hrun
  | succ n ih =>
    simp only [traceField] at hrun
    cases hx : expandTarget h f with
    | none =>
      simp only [hx, Except.ok.injEq] at hrun
      intro e he
      rw [← hrun] at he
      simp only [List.mem_singleton] at he
      subst he
      exact Nat.le_refl d
    | some m =>
      simp only [hx] at hrun
      cases hsub : traceFieldsWith (traceField h n) (d + 1) f.JSONName m.Fields with
      | error e => simp [hsub] at hrun
      | ok sub =>
        simp only [hsub, Except.ok.injEq] at hrun
        intro e he
        rw [← hrun] at he
        rcases List.mem_cons.mp he with he | he
        · subst he
          exact Nat.le_refl d
        · have hle := traceFieldsWith_all (traceField h n) (fun e => d + 1 ≤ e.depth) (d + 1)
            f.JSONName m.Fields sub hsub (fun c _ b hb => ih (d + 1) f.JSONName c b hb) e he
          exact Nat.le_of_succ_le hle

theorem traceField_head (h : Heap) (fuel : Nat) (d : Nat) (p : String) (f : Field)
    (es : List Emission) (hrun : traceField h fuel d p f = .ok es) :
    ∃ sub : List Emission, es = ⟨d, p, f⟩ :: sub ∧ (∀ e ∈ sub, d < e.depth) ∧
      ∀ p' : String, traceField h fuel d p' f = .ok (⟨d, p', f⟩ :: sub) := by
  cases fuel with
  | zero => simp [traceField] at hrun
  | succ n =>
    simp only [traceField] at hrun ⊢
    cases hx : expandTarget h f with
    | none =>
      simp only [hx, Except.ok.injEq] at hrun
      exact ⟨[], hrun.symm, by simp, fun _ => rfl⟩
    | some m =>
      simp only [hx] at hrun
      cases hsub : traceFieldsWith (traceField h n) (d + 1) f.JSONName m.Fields with
      | error e => simp [hsub] at hrun
      | ok sub =>
        simp only [hsub, Except.ok.injEq] at hrun
        refine ⟨sub, hrun.symm, ?_, fun _ => by simp [hsub]⟩
        exact traceFieldsWith_all (traceField h n) (fun e => d < e.depth) (d + 1)
          f.JSONName m.Fields sub hsub
          (fun c _ b hb e he => traceField_depth_ge h n (d + 1) f.JSONName c b hb e he)

theorem traceFieldsWith_rename (h : Heap) (fuel : Nat) (d : Nat) (p₁ p₂ : String)
    (fs : List Field) (es₁ : List Emission)
    (hrun : traceFieldsWith (traceField h fuel) d p₁ fs = .ok es₁) :
    ∃ es₂ : List Emission, traceFieldsWith (traceField h fuel) d p₂ fs = .ok es₂ ∧
      List.Forall₂ (SameBut d p₁ p₂) es₁ es₂ := by
  induction fs generalizing es₁ with
  | nil =>
    simp only [traceFieldsWith, Except.ok.injEq] at hrun
    exact ⟨[], rfl, by rw [← hrun]; exact List.Forall₂.nil⟩
  | cons f rest ih =>
    simp only [traceFieldsWith] at hrun
    cases hb : traceField h fuel d p₁ f with
    | error e => simp [hb] at hrun
    | ok b =>
      simp only [hb] at hrun
      cases hrest : traceFieldsWith (traceField h fuel) d p₁ rest with
      | error e => simp [hrest] at hrun
      | ok es' =>
        simp only [hrest, Except.ok.injEq] at hrun
        obtain ⟨es₂', hrest₂, hall⟩ := ih es' hrest
        obtain ⟨sub, hbeq, hdeep, hany⟩ := traceField_head h fuel d p₁ f b hb
        refine ⟨(⟨d, p₂, f⟩ :: sub) ++ es₂', ?_, ?_⟩
        · simp [traceFieldsWith, hany p₂, hrest₂]
        · rw [← hrun, hbeq]
          refine List.rel_append ?_ hall
          refine List.Forall₂.cons ⟨rfl, rfl, Or.inl ⟨rfl, rfl, rfl⟩⟩ ?_
          exact List.forall₂_same.mpr (fun e he => ⟨rfl, rfl, Or.inr ⟨hdeep e he, rfl⟩⟩)

theorem traceFieldsWith_direct (h : Heap) (fuel : Nat) (d : Nat) (p : String)
    (fs : List Field) (es : List Emission)
    (hrun : traceFieldsWith (traceField h fuel) d p fs = .ok es) :
    (es.filter (fun e => e.depth == d)).map Emission.field = fs := by
  induction fs generalizing es with
  | nil =>
    simp only [traceFieldsWith, Except.ok.injEq] at hrun
    simp [← hrun]
  | cons f rest ih =>
    simp only [traceFieldsWith] at hrun
    cases hb : traceField h fuel d p f with
    | error e => simp [hb] at hrun
    | ok b =>
      simp only [hb] at hrun
      cases hrest : traceFieldsWith (traceField h fuel) d p rest with
      | error e => simp [hrest] at hrun
      | ok es' =>
        simp only [hrest, Except.ok.injEq] at hrun
        obtain ⟨sub, hbeq, hdeep, _⟩ := traceField_head h fuel d p f b hb
        have hsub : sub.filter (fun e => e.depth == d) = [] := by
          rw [List.filter_eq_nil_iff]
          intro e he
          have hlt := hdeep e he
          simp only [beq_iff_eq]
          omega
        rw [← hrun, hbeq]
        simp [List.filter_cons, hsub, ih es' hrest]

/-- C11: for two fields `f₁` and `f₂` with the same nested message `T`,
which differs from their parents, `printField` expands both: when it returns
for `f₁` it returns for `f₂`, and what it prints is the field's own row
followed by everything `printSubMessage` prints for `T` under that field's
name.  The rows beneath the two fields are the rows of the two lists of calls
that the loop of `printSubMessage` makes over the fields of `T`; the direct
children among them are exactly the fields of `T` in declaration order; the
two lists are equally long, and corresponding calls are for the same field at
the same depth, hence print the same kind label and comment; the parent name
in the display name is that of `f₁` against that of `f₂` for the direct
children and the same for all deeper rows. -/
theorem printField_same_type_siblings (h : Heap) (fuel : Nat) (d : Nat) (p : String)
    (f₁ f₂ : Field) (r₁ r₂ : MsgRef) (b₁ : List String)
    (hm₁ : f₁.Message = some r₁) (hm₂ : f₂.Message = some r₂) (hsame : h r₁ = h r₂)
    (hne₁ : (h r₁).FullName ≠ (h f₁.Parent).FullName)
    (hne₂ : (h r₂).FullName ≠ (h f₂.Parent).FullName)
    (hrun : printField h fuel [] d p f₁ = .ok b₁) :
    ∃ (n : Nat) (es₁ es₂ : List Emission),
      fuel = n + 1 ∧
      traceFieldsWith (traceField h n) (d + 1) f₁.JSONName (h r₁).Fields = .ok es₁ ∧
      traceFieldsWith (traceField h n) (d + 1) f₂.JSONName (h r₂).Fields = .ok es₂ ∧
      printSubMessage h n [] (d + 1) f₁.JSONName (h r₁) = .ok (es₁.map Emission.row) ∧
      printSubMessage h n [] (d + 1) f₂.JSONName (h r₂) = .ok (es₂.map Emission.row) ∧
      (es₁.filter (fun e => e.depth == d + 1)).map Emission.field = (h r₁).Fields ∧
      (es₂.filter (fun e => e.depth == d + 1)).map Emission.field = (h r₂).Fields ∧
      b₁ = fieldRow d p f₁ :: es₁.map Emission.row ∧
      printField h fuel [] d p f₂ = .ok (fieldRow d p f₂ :: es₂.map Emission.row) ∧
      es₁.length = es₂.length ∧
      List.Forall₂ (fun e₁ e₂ =>
        fieldKindLabel e₁.field = fieldKindLabel e₂.field ∧
        getCompactComment e₁.field.Comments = getCompactComment e₂.field.Comments ∧
        e₁.field.JSONName = e₂.field.JSONName ∧ e₁.depth = e₂.depth ∧
        ((e₁.depth = d + 1 ∧ e₁.parentName = f₁.JSONName ∧ e₂.parentName = f₂.JSONName) ∨
          (d + 1 < e₁.depth ∧ e₁.parentName = e₂.parentName))) es₁ es₂ := by
  have hx₁ : expandTarget h f₁ = some (h r₁) := by simp [expandTarget, hm₁, hne₁]
  have hx₂ : expandTarget h f₂ = some (h r₁) := by
    simp [expandTarget, hm₂, hne₂, hsame]
  rw [printField_trace] at hrun
  rw [printField_trace]
  cases fuel with
  | zero => simp [traceField, Except.map] at hrun
  | succ n =>
    simp only [traceField, hx₁] at hrun
    simp only [traceField, hx₂]
    cases hsub : traceFieldsWith (traceField h n) (d + 1) f₁.JSONName (h r₁).Fields with
    | error e => simp [hsub, Except.map] at hrun
    | ok es₁ =>
      simp only [hsub, Except.map, Except.ok.injEq] at hrun
      obtain ⟨es₂, hsub₂, hall⟩ :=
        traceFieldsWith_rename h n (d + 1) f₁.JSONName f₂.JSONName (h r₁).Fields es₁ hsub
      have hsub₂' :
          traceFieldsWith (traceField h n) (d + 1) f₂.JSONName (h r₂).Fields = .ok es₂ := by
        rw [← hsame]
        exact hsub₂
      refine ⟨n, es₁, es₂, rfl, hsub, hsub₂', ?_, ?_,
        traceFieldsWith_direct h n (d + 1) f₁.JSONName (h r₁).Fields es₁ hsub,
        traceFieldsWith_direct h n (d + 1) f₂.JSONName (h r₂).Fields es₂ hsub₂',
        ?_, ?_, hall.length_eq, ?_⟩
      · unfold printSubMessage
        rw [printSubMessage_trace, hsub]
        simp [Except.map]
      · unfold printSubMessage
        rw [printSubMessage_trace, hsub₂']
        simp [Except.map]
      · rw [← hrun]
        simp [Emission.row]
      · simp [hsub₂, Except.map, Emission.row]
      · refine hall.imp ?_
        intro e₁ e₂ he
        obtain ⟨hfield, hdepth, hnames⟩ := he
        exact ⟨by rw [hfield], by rw [hfield], by rw [hfield], hdepth, hnames⟩

/-- C11 at `Segment{from: Point, to: Point}`: the rows beneath `from` and
beneath `to` are the rows of `x` and `y`, named after `from` and after `to`. -/
theorem printField_same_type_siblings_witness :
    printField segmentHeap 2 [] 0 "" segmentFrom =
      .ok ["|from|message||", "|> from.x|int32||", "|> from.y|int32||"] ∧
    printField segmentHeap 2 [] 0 "" segmentTo =
      .ok ["|to|message||", "|> to.x|int32||", "|> to.y|int32||"] ∧
    ∃ (n : Nat) (es₁ es₂ : List Emission),
      2 = n + 1 ∧
      traceFieldsWith (traceField segmentHeap n) (0 + 1) segmentFrom.JSONName
        (segmentHeap 1).Fields = .ok es₁ ∧
      traceFieldsWith (traceField segmentHeap n) (0 + 1) segmentTo.JSONName
        (segmentHeap 1).Fields = .ok es₂ ∧
      printSubMessage segmentHeap n [] (0 + 1) segmentFrom.JSONName (segmentHeap 1) =
        .ok (es₁.map Emission.row) ∧
      printSubMessage segmentHeap n [] (0 + 1) segmentTo.JSONName (segmentHeap 1) =
        .ok (es₂.map Emission.row) ∧
      (es₁.filter (fun e => e.depth == 0 + 1)).map Emission.field = (segmentHeap 1).Fields ∧
      (es₂.filter (fun e => e.depth == 0 + 1)).map Emission.field = (segmentHeap 1).Fields ∧
      ["|from|message||", "|> from.x|int32||", "|> from.y|int32||"] =
        fieldRow 0 "" segmentFrom :: es₁.map Emission.row ∧
      printField segmentHeap 2 [] 0 "" segmentTo =
        .ok (fieldRow 0 "" segmentTo :: es₂.map Emission.row) ∧
      es₁.length = es₂.length ∧
      List.Forall₂ (fun e₁ e₂ =>
        fieldKindLabel e₁.field = fieldKindLabel e₂.field ∧
        getCompactComment e₁.field.Comments = getCompactComment e₂.field.Comments ∧
        e₁.field.JSONName = e₂.field.JSONName ∧ e₁.depth = e₂.depth ∧
        ((e₁.depth = 0 + 1 ∧ e₁.parentName = segmentFrom.JSONName ∧
            e₂.parentName = segmentTo.JSONName) ∨
          (0 + 1 < e₁.depth ∧ e₁.parentName = e₂.parentName))) es₁ es₂ :=
  ⟨rfl, rfl, printField_same_type_siblings segmentHeap 2 0 "" segmentFrom segmentTo 1 1 _
    rfl rfl rfl (by decide) (by decide) rfl⟩

/-! ## Compact comments -/

/-- C12: for the comment set with an empty leading comment and the
two-line trailing comment ` first` / ` second`, `getCompactComment` returns
`first`, a line break, `// second`: the result holds a line break. -/
theorem getCompactComment_keeps_line_break :
    getCompactComment twoLineTrailing = "first\n// second" ∧
    '\n' ∈ (getCompactComment twoLineTrailing).data := by
  refine ⟨by decide, by decide⟩

/-- C13: for a comment set with empty leading and trailing comments
`getCompactComment` returns the empty string, and for every comment set it
returns a string. -/
theorem getCompactComment_empty (c : CommentSet) (hl : c.Leading = "") (ht : c.Trailing = "") :
    getCompactComment c = "" ∧ ∀ c' : CommentSet, ∃ s : String, getCompactComment c' = s := by
  refine ⟨?_, fun c' => ⟨_, rfl⟩⟩
  obtain ⟨l, t⟩ := c
  simp only at hl ht
  subst hl ht
  decide

/-- C13 at the comment set with both comments empty. -/
theorem getCompactComment_empty_witness : getCompactComment ⟨"", ""⟩ = "" :=
  (getCompactComment_empty ⟨"", ""⟩ rfl rfl).1

/-! ## Streaming methods are left out -/

theorem getAllMethodsOfService_eq (methods : List MethodDef) (ms : List Method) :
    getAllMethodsOfService methods ms =
      methods ++ (ms.filter
        (fun m => !(m.IsStreamingClient || m.IsStreamingServer))).map parseMethod := by
  induction ms generalizing methods with
  | nil => simp [getAllMethodsOfService]
  | cons m rest ih =>
    simp only [getAllMethodsOfService, ih]
    cases hc : m.IsStreamingClient <;> cases hv : m.IsStreamingServer <;>
      simp [List.filter_cons, hc, hv]

theorem getAllMethodsOfServices_eq (methods : List MethodDef) (svcs : List Service) :
    getAllMethodsOfServices methods svcs =
      methods ++ ((svcs.flatMap Service.Methods).filter
        (fun m => !(m.IsStreamingClient || m.IsStreamingServer))).map parseMethod := by
  induction svcs generalizing methods with
  | nil => simp [getAllMethodsOfServices]
  | cons svc rest ih =>
    simp only [getAllMethodsOfServices, ih, getAllMethodsOfService_eq]
    simp [List.flatMap_cons, List.filter_append, List.append_assoc]

theorem printMethods_blocks (marshal : Marshalable → String) (h : Heap) (fuel : Nat)
    (g g' : GeneratedFile) (mds : List MethodDef)
    (hrun : printMethods marshal h fuel g mds = .ok g')
    (hlocal : ∀ (g₁ : GeneratedFile) (md : MethodDef), printMethod marshal h fuel g₁ md =
      (printMethod marshal h fuel [] md).map (fun b => g₁ ++ b)) :
    ∃ blocks : List (List String), g' = g ++ blocks.flatten ∧
      List.Forall₂ (fun md block => printMethod marshal h fuel [] md = .ok block) mds blocks := by
  induction mds generalizing g with
  | nil =>
    simp only [printMethods, Except.ok.injEq] at hrun
    exact ⟨[], by simp [← hrun], List.Forall₂.nil⟩
  | cons md rest ih =>
    simp only [printMethods] at hrun
    rw [hlocal] at hrun
    cases hb : printMethod marshal h fuel [] md with
    | error e => simp [hb, Except.map] at hrun
    | ok b =>
      simp only [hb, Except.map] at hrun
      obtain ⟨blocks, hg, hall⟩ := ih _ hrun
      exact ⟨b :: blocks, by simp [hg, List.append_assoc], List.Forall₂.cons hb hall⟩

theorem printMessage_local (h : Heap) (fuel : Nat) (g : GeneratedFile) (M : Message) :
    printMessage h fuel g M = (printMessage h fuel [] M).map (fun b => g ++ b) := by
  unfold printMessage
  rw [printSubMessage_trace, printSubMessage_trace]
  cases traceFieldsWith (traceField h fuel) 0 "" M.Fields with
  | error e => simp [Except.map]
  | ok es => simp [Except.map, GeneratedFile.P, List.append_assoc]

theorem printMessageJson_eq (marshal : Marshalable → String) (h : Heap) (fuel : Nat)
    (g : GeneratedFile) (M : Message) :
    printMessageJson marshal h fuel g M =
      (messageToInterface h fuel M).map
        (fun X => g ++ ["```json", marshal (.value X), "```"]) := by
  unfold printMessageJson
  cases messageToInterface h fuel M with
  | error e => simp [Except.map]
  | ok X => simp [Except.map, GeneratedFile.P, List.append_assoc]

theorem printWrappedMessageJson_eq (marshal : Marshalable → String) (h : Heap) (fuel : Nat)
    (g : GeneratedFile) (M : Message) :
    printWrappedMessageJson marshal h fuel g M =
      (messageToInterface h fuel M).map
        (fun X => g ++ ["```json", marshal (.wrapped ⟨0, "ok", X⟩), "```"]) := by
  unfold printWrappedMessageJson wrappedResp
  cases messageToInterface h fuel M with
  | error e => simp [Except.map]
  | ok X => simp [Except.map, GeneratedFile.P, List.append_assoc]

theorem printRequestJson_local (marshal : Marshalable → String) (h : Heap) (fuel : Nat)
    (g : GeneratedFile) (md : MethodDef) :
    printRequestJson marshal h fuel g md =
      (printRequestJson marshal h fuel [] md).map (fun b => g ++ b) := by
  unfold printRequestJson
  by_cases hv : (md.httpMethod != "GET") = true
  · simp only [hv, if_true, printMessageJson_eq]
    cases messageToInterface h fuel (h md.Method.Input) with
    | error e => simp [Except.map]
    | ok X => simp [Except.map, GeneratedFile.P, List.append_assoc]
  · simp [hv, Except.map]

theorem printMethod_local (marshal : Marshalable → String) (h : Heap) (fuel : Nat)
    (g : GeneratedFile) (md : MethodDef) :
    printMethod marshal h fuel g md =
      (printMethod marshal h fuel [] md).map (fun b => g ++ b) := by
  unfold printMethod
  simp only
  rw [printMessage_local h fuel _ (h md.Method.Input)]
  conv_rhs => rw [printMessage_local h fuel _ (h md.Method.Input)]
  cases printMessage h fuel [] (h md.Method.Input) with
  | error e => simp [Except.map]
  | ok t₁ =>
    simp only [Except.map]
    rw [printRequestJson_local]
    conv_rhs => rw [printRequestJson_local]
    cases printRequestJson marshal h fuel [] md with
    | error e => simp [Except.map]
    | ok j₁ =>
      simp only [Except.map]
      rw [printMessage_local h fuel _ (h md.Method.Output)]
      conv_rhs => rw [printMessage_local h fuel _ (h md.Method.Output)]
      cases printMessage h fuel [] (h md.Method.Output) with
      | error e => simp [Except.map]
      | ok t₂ =>
        simp only [Except.map, printWrappedMessageJson_eq]
        cases messageToInterface h fuel (h md.Method.Output) with
        | error e => simp [Except.map]
        | ok X => simp [Except.map, GeneratedFile.P, List.append_assoc]

/-- C14: `getAllMethods` returns, in service order and then method order,
`parseMethod` of exactly the methods with neither streaming flag set; no
method definition it returns has a streaming flag set; and what
`GenerateFile` returns is the three title lines followed by the blocks
printed for the method definitions of `getAllMethods`, in order, and nothing
else. -/
theorem getAllMethods_non_streaming (marshal : Marshalable → String) (h : Heap) (fuel : Nat)
    (file : File) :
    getAllMethods file =
      ((file.Services.flatMap Service.Methods).filter
        (fun m => !(m.IsStreamingClient || m.IsStreamingServer))).map parseMethod ∧
    (∀ md ∈ getAllMethods file,
      md.Method.IsStreamingClient = false ∧ md.Method.IsStreamingServer = false) ∧
    (∀ g : GeneratedFile, GenerateFile marshal h fuel file = .ok g →
      ∃ blocks : List (List String),
        g = [file.GeneratedFilenamePrefix ++ " API DOC", "======", "[toc]"] ++ blocks.flatten ∧
        List.Forall₂ (fun md block => printMethod marshal h fuel [] md = .ok block)
          (getAllMethods file) blocks) := by
  have heq : getAllMethods file =
      ((file.Services.flatMap Service.Methods).filter
        (fun m => !(m.IsStreamingClient || m.IsStreamingServer))).map parseMethod := by
    unfold getAllMethods
    rw [getAllMethodsOfServices_eq]
    simp
  refine ⟨heq, ?_, ?_⟩
  · intro md hmd
    rw [heq] at hmd
    obtain ⟨m, hm, hpm⟩ := List.mem_map.mp hmd
    have hflags := (List.mem_filter.mp hm).2
    have hmeth : md.Method = m := by rw [← hpm]; rfl
    rw [hmeth]
    cases hc : m.IsStreamingClient <;> cases hv : m.IsStreamingServer <;>
      simp [hc, hv] at hflags ⊢
  · intro g hg
    unfold GenerateFile at hg
    obtain ⟨blocks, hblocks, hall⟩ :=
      printMethods_blocks marshal h fuel _ g (getAllMethods file) hg
        (printMethod_local marshal h fuel)
    exact ⟨blocks, by simpa [GeneratedFile.P] using hblocks, hall⟩

/-- C14 at the file with the methods `GetPoint`, `WatchPoints` (server
streaming) and `ListPoints`: the method definitions are those of `GetPoint`
and `ListPoints`. -/
theorem getAllMethods_non_streaming_witness :
    getAllMethods pointsFile = [parseMethod getPointMethod, parseMethod listPointsMethod] ∧
    ∀ md ∈ getAllMethods pointsFile,
      md.Method.IsStreamingClient = false ∧ md.Method.IsStreamingServer = false :=
  ⟨(getAllMethods_non_streaming tagMarshal pathHeap 2 pointsFile).1,
   (getAllMethods_non_streaming tagMarshal pathHeap 2 pointsFile).2.1⟩

/-- C15: the record that `printWrappedMessageJson` builds for an output
message `O` is `errCode = 0`, `errMsg = "ok"`, `data = X` with `X` the result
of `messageToInterface O`, and that record is what it hands to the
serializer between the two fence lines; `printMessageJson` hands over the
same `X` unwrapped; for `Point{x: int32, y: int32}` the record is
`{errCode: 0, errMsg: "ok", data: {x: 0, y: 0}}`. -/
theorem printWrappedMessageJson_envelope (marshal : Marshalable → String) (h : Heap)
    (fuel : Nat) (g : GeneratedFile) (O : Message) :
    wrappedResp h fuel O =
      (messageToInterface h fuel O).map (fun X => ⟨0, "ok", X⟩) ∧
    printWrappedMessageJson marshal h fuel g O =
      (wrappedResp h fuel O).map
        (fun resp => g ++ ["```json", marshal (.wrapped resp), "```"]) ∧
    printMessageJson marshal h fuel g O =
      (messageToInterface h fuel O).map
        (fun X => g ++ ["```json", marshal (.value X), "```"]) ∧
    wrappedResp pathHeap 1 (pathHeap 1) =
      .ok ⟨0, "ok", .map [("x", .int 0), ("y", .int 0)]⟩ := by
  refine ⟨?_, ?_, printMessageJson_eq marshal h fuel g O, rfl⟩
  · unfold wrappedResp
    cases messageToInterface h fuel O <;> simp [Except.map]
  · rw [printWrappedMessageJson_eq]
    unfold wrappedResp
    cases messageToInterface h fuel O <;> simp [Except.map]

/-- C16: when the block of a method is printed, it is the heading lines,
`### Request`, the request table, the request example, `### Response
payload`, the response table and the enveloped response example; the request
example is empty when the resolved verb is `GET`, and otherwise it is the
`#### JSON` block holding the unwrapped example of the input message. -/
theorem printMethod_request_example (marshal : Marshalable → String) (h : Heap) (fuel : Nat)
    (g g' : GeneratedFile) (md : MethodDef)
    (hrun : printMethod marshal h fuel g md = .ok g') :
    ∃ (reqRows respRows reqExample : List String) (X : Value),
      printMessage h fuel [] (h md.Method.Input) = .ok reqRows ∧
      printMessage h fuel [] (h md.Method.Output) = .ok respRows ∧
      messageToInterface h fuel (h md.Method.Output) = .ok X ∧
      g' = g ++ ["## " ++ md.Method.FullName, "", md.Method.Leading,
              "`" ++ md.httpMethod ++ " " ++ md.httpPath ++ "`", "", "### Request", ""]
            ++ reqRows ++ [""] ++ reqExample ++ ["### Response payload", ""] ++ respRows
            ++ ["", "#### JSON", "", "```json", marshal (.wrapped ⟨0, "ok", X⟩), "```", ""] ∧
      (md.httpMethod = "GET" → reqExample = []) ∧
      (md.httpMethod ≠ "GET" → ∃ Y : Value,
        messageToInterface h fuel (h md.Method.Input) = .ok Y ∧
        reqExample = ["#### JSON", "", "```json", marshal (.value Y), "```", ""]) := by
  unfold printMethod at hrun
  simp only at hrun
  rw [printMessage_local h fuel _ (h md.Method.Input)] at hrun
  cases ht₁ : printMessage h fuel [] (h md.Method.Input) with
  | error e => simp [ht₁, Except.map] at hrun
  | ok t₁ =>
    simp only [ht₁, Except.map] at hrun
    rw [printRequestJson_local] at hrun
    cases hj : printRequestJson marshal h fuel [] md with
    | error e => simp [hj, Except.map] at hrun
    | ok j =>
      simp only [hj, Except.map] at hrun
      rw [printMessage_local h fuel _ (h md.Method.Output)] at hrun
      cases ht₂ : printMessage h fuel [] (h md.Method.Output) with
      | error e => simp [ht₂, Except.map] at hrun
      | ok t₂ =>
        simp only [ht₂, Except.map, printWrappedMessageJson_eq] at hrun
        cases hX : messageToInterface h fuel (h md.Method.Output) with
        | error e => simp [hX, Except.map] at hrun
        | ok X =>
          simp only [hX, Except.map, Except.ok.injEq] at hrun
          refine ⟨t₁, t₂, j, X, rfl, rfl, rfl, ?_, ?_, ?_⟩
          · rw [← hrun]
            simp [GeneratedFile.P, List.append_assoc]
          · intro hget
            unfold printRequestJson at hj
            simp only [hget, bne_self_eq_false, Bool.false_eq_true, if_false,
              Except.ok.injEq] at hj
            exact hj.symm
          · intro hne
            unfold printRequestJson at hj
            have hb : (md.httpMethod != "GET") = true := by simpa using hne
            simp only [hb, if_true, printMessageJson_eq] at hj
            cases hY : messageToInterface h fuel (h md.Method.Input) with
            | error e => simp [hY, Except.map] at hj
            | ok Y =>
              simp only [hY, Except.map, Except.ok.injEq] at hj
              refine ⟨Y, rfl, ?_⟩
              rw [← hj]
              simp [GeneratedFile.P]

/-- C16 at `ListPoints`, resolved to `GET`, and at `GetPoint`, resolved to
`POST`: the block of the first has no request example, that of the second
has the `#### JSON` block of the input message. -/
theorem printMethod_request_example_witness :
    printMethod tagMarshal pathHeap 2 [] (parseMethod listPointsMethod) =
      .ok ["## pkg.Svc.ListPoints", "", "", "`GET /v1/points`", "", "### Request", "",
        "| 字段        | 类型        | 描述  |", "| ----------- |:----------:| -----|",
        "|x|int32||", "|y|int32||", "",
        "### Response payload", "",
        "| 字段        | 类型        | 描述  |", "| ----------- |:----------:| -----|",
        "|points|array||", "|> points.x|int32||", "|> points.y|int32||", "|tags|array||",
        "", "#### JSON", "", "```json", "wrapped", "```", ""] ∧
    ∃ (reqRows respRows reqExample : List String) (X : Value) (g' : GeneratedFile),
      printMethod tagMarshal pathHeap 2 [] (parseMethod getPointMethod) = .ok g' ∧
      printMessage pathHeap 2 [] (pathHeap 1) = .ok reqRows ∧
      printMessage pathHeap 2 [] (pathHeap 1) = .ok respRows ∧
      messageToInterface pathHeap 2 (pathHeap 1) = .ok X ∧
      g' = [] ++ ["## pkg.Svc.GetPoint", "", "", "`POST pkg.Svc.GetPoint`", "",
              "### Request", ""]
            ++ reqRows ++ [""] ++ reqExample ++ ["### Response payload", ""] ++ respRows
            ++ ["", "#### JSON", "", "```json", tagMarshal (.wrapped ⟨0, "ok", X⟩), "```", ""] ∧
      reqExample = ["#### JSON", "", "```json", "value", "```", ""] := by
  refine ⟨rfl, ?_⟩
  obtain ⟨reqRows, respRows, reqExample, X, h₁, h₂, h₃, h₄, _, h₆⟩ :=
    printMethod_request_example tagMarshal pathHeap 2 [] _ (parseMethod getPointMethod) rfl
  obtain ⟨Y, _, hY⟩ := h₆ (by decide)
  exact ⟨reqRows, respRows, reqExample, X, _, rfl, h₁, h₂, h₃, h₄, hY⟩

/-! ## Recursion that never returns -/

theorem printSubMessageWith_ok_each
    (pf : GeneratedFile → Nat → String → Field → Except Err GeneratedFile)
    (g g' : GeneratedFile) (d : Nat) (p : String) (fs : List Field)
    (hrun : printSubMessageWith pf g d p fs = .ok g') :
    ∀ f ∈ fs, ∃ g₁ g₂, pf g₁ d p f = .ok g₂ := by
  induction fs generalizing g with
  | nil => simp
  | cons f₀ rest ih =>
    simp only [printSubMessageWith] at hrun
    cases h₀ : pf g d p f₀ with
    | error e => simp [h₀] at hrun
    | ok g₀ =>
      simp only [h₀] at hrun
      intro f hf
      rcases List.mem_cons.mp hf with heq | hmem
      · subst heq
        exact ⟨g, g₀, h₀⟩
      · exact ih g₀ hrun f hmem

theorem printSubMessageWith_error_from
    (pf : GeneratedFile → Nat → String → Field → Except Err GeneratedFile)
    (g : GeneratedFile) (d : Nat) (p : String) (fs : List Field) (e : Err)
    (hrun : printSubMessageWith pf g d p fs = .error e) :
    ∃ g₁ f, f ∈ fs ∧ pf g₁ d p f = .error e := by
  induction fs generalizing g with
  | nil => simp [printSubMessageWith] at hrun
  | cons f₀ rest ih =>
    simp only [printSubMessageWith] at hrun
    cases h₀ : pf g d p f₀ with
    | error e₀ =>
      simp only [h₀, Except.error.injEq] at hrun
      exact ⟨g, f₀, List.mem_cons_self f₀ rest, by rw [h₀, hrun]⟩
    | ok g₀ =>
      simp only [h₀] at hrun
      obtain ⟨g₁, f, hf, hpf⟩ := ih g₀ hrun
      exact ⟨g₁, f, List.mem_cons_of_mem f₀ hf, hpf⟩

theorem printField_error_outOfFuel (h : Heap) (fuel : Nat) (g : GeneratedFile) (d : Nat)
    (p : String) (f : Field) (e : Err) (hrun : printField h fuel g d p f = .error e) :
    e = .outOfFuel := by
  induction fuel generalizing g d p f with
  | zero =>
    simp only [printField, Except.error.injEq] at hrun
    exact hrun.symm
  | succ n ih =>
    simp only [printField] at hrun
    cases hx : expandTarget h f with
    | none => simp [hx] at hrun
    | some m =>
      simp only [hx] at hrun
      obtain ⟨g₁, c, _, hc⟩ := printSubMessageWith_error_from _ _ _ _ _ e hrun
      exact ih g₁ (d + 1) f.JSONName c hc

theorem printMessage_error_outOfFuel (h : Heap) (fuel : Nat) (g : GeneratedFile)
    (M : Message) (e : Err) (hrun : printMessage h fuel g M = .error e) :
    e = .outOfFuel := by
  unfold printMessage at hrun
  obtain ⟨g₁, c, _, hc⟩ := printSubMessageWith_error_from _ _ _ _ _ e hrun
  exact printField_error_outOfFuel h fuel g₁ 0 "" c e hc

theorem printField_cycle (h : Heap) (A B : Message) (fa fb : Field)
    (hxa : expandTarget h fa = some B) (hb : fb ∈ B.Fields)
    (hxb : expandTarget h fb = some A) (ha : fa ∈ A.Fields) (fuel : Nat) :
    ∀ (g : GeneratedFile) (d : Nat) (p : String) (g' : GeneratedFile),
      printField h fuel g d p fa ≠ .ok g' ∧ printField h fuel g d p fb ≠ .ok g' := by
  induction fuel with
  | zero =>
    intro g d p g'
    simp [printField]
  | succ n ih =>
    intro g d p g'
    constructor
    · intro hrun
      simp only [printField, hxa] at hrun
      obtain ⟨g₁, g₂, hcall⟩ := printSubMessageWith_ok_each _ _ _ _ _ _ hrun fb hb
      exact (ih g₁ (d + 1) fa.JSONName g₂).2 hcall
    · intro hrun
      simp only [printField, hxb] at hrun
      obtain ⟨g₁, g₂, hcall⟩ := printSubMessageWith_ok_each _ _ _ _ _ _ hrun fa ha
      exact (ih g₁ (d + 1) fb.JSONName g₂).1 hcall

theorem printMessage_cycle (h : Heap) (A B : Message) (fa fb : Field)
    (hxa : expandTarget h fa = some B) (hb : fb ∈ B.Fields)
    (hxb : expandTarget h fb = some A) (ha : fa ∈ A.Fields) (fuel : Nat)
    (g : GeneratedFile) : printMessage h fuel g A = .error .outOfFuel := by
  cases hrun : printMessage h fuel g A with
  | error e => rw [printMessage_error_outOfFuel h fuel g A e hrun]
  | ok g' =>
    exfalso
    unfold printMessage at hrun
    obtain ⟨g₁, g₂, hcall⟩ := printSubMessageWith_ok_each _ _ _ _ _ _ hrun fa ha
    exact (printField_cycle h A B fa fb hxa hb hxb ha fuel g₁ 0 "" g₂).1 hcall

/-- C17: the guards of the two traversals are separate tests.  For a
message `A` with a map-valued field `kids` whose map-entry message `E` has a
field `value` of type `A`, the synthesizer yields an empty mapping for `kids`
without any recursion, while `printField` expands `kids` into `E` and `value`
into `A` again, so `printMessage A` returns at no recursion depth; on
`Tree{kids: map<string, Tree>}` `messageToInterface` returns and
`printMessage` never does. -/
theorem printMessage_diverges_on_map_cycle (h : Heap) (a e : MsgRef) (kids value : Field)
    (hk : kids ∈ (h a).Fields) (hv : value ∈ (h e).Fields)
    (hmap : kids.IsMap = true) (hlist : kids.IsList = false)
    (hkm : kids.Message = some e) (hvm : value.Message = some a)
    (hkp : h kids.Parent = h a) (hvp : h value.Parent = h e)
    (hne : (h e).FullName ≠ (h a).FullName) :
    (∀ mti : Message → Except Err Value,
        fieldExampleWith h mti (h a) kids = .ok (.map [])) ∧
    (∀ (fuel : Nat) (g : GeneratedFile), printMessage h fuel g (h a) = .error .outOfFuel) ∧
    (∀ fuel : Nat, messageToInterface treeHeap (fuel + 1) (treeHeap 0) =
        .ok (.map [("kids", .map [])])) ∧
    (∀ (fuel : Nat) (g : GeneratedFile),
        printMessage treeHeap fuel g (treeHeap 0) = .error .outOfFuel) := by
  have hxk : expandTarget h kids = some (h e) := by simp [expandTarget, hkm, hkp, hne]
  have hxv : expandTarget h value = some (h a) := by
    simp [expandTarget, hvm, hvp, Ne.symm hne]
  refine ⟨?_, ?_, ?_, ?_⟩
  · intro mti
    have hself : isSelfTyped h (h a) kids = false := by simp [isSelfTyped, hkm, hne]
    simp [fieldExampleWith, hself, hmap, hlist]
  · intro fuel g
    exact printMessage_cycle h (h a) (h e) kids value hxk hv hxv hk fuel g
  · intro fuel
    rfl
  · intro fuel g
    exact printMessage_cycle treeHeap (treeHeap 0) (treeHeap 1) treeKids treeEntryValue
      (by decide) (by decide) (by decide) (by decide) fuel g

/-- C17 at `Tree{kids: map<string, Tree>}`: the synthesizer gives `kids` an
empty mapping, the flattener runs out of every recursion depth. -/
theorem printMessage_diverges_on_map_cycle_witness :
    (∀ mti : Message → Except Err Value,
      fieldExampleWith treeHeap mti (treeHeap 0) treeKids = .ok (.map [])) ∧
    (∀ (fuel : Nat) (g : GeneratedFile),
      printMessage treeHeap fuel g (treeHeap 0) = .error .outOfFuel) :=
  ⟨(printMessage_diverges_on_map_cycle treeHeap 0 1 treeKids treeEntryValue
      (by decide) (by decide) rfl rfl rfl rfl rfl rfl (by decide)).1,
   (printMessage_diverges_on_map_cycle treeHeap 0 1 treeKids treeEntryValue
      (by decide) (by decide) rfl rfl rfl rfl rfl rfl (by decide)).2.1⟩

theorem messageLoop_ok_each (h : Heap) (mti : Message → Except Err Value) (M : Message)
    (fs : List Field) (st st' : List (String × Value))
    (hrun : messageLoop h mti M st fs = .ok st') :
    ∀ f ∈ fs, ∃ fi, fieldExampleWith h mti M f = .ok fi := by
  induction fs generalizing st with
  | nil => simp
  | cons f₀ rest ih =>
    simp only [messageLoop, messageStep] at hrun
    cases h₀ : fieldExampleWith h mti M f₀ with
    | error e => simp [h₀] at hrun
    | ok fi =>
      simp only [h₀] at hrun
      intro f hf
      rcases List.mem_cons.mp hf with heq | hmem
      · subst heq
        exact ⟨fi, h₀⟩
      · exact ih _ hrun f hmem

theorem messageLoop_error_from (h : Heap) (mti : Message → Except Err Value) (M : Message)
    (fs : List Field) (st : List (String × Value)) (e : Err)
    (hrun : messageLoop h mti M st fs = .error e) :
    ∃ f ∈ fs, fieldExampleWith h mti M f = .error e := by
  induction fs generalizing st with
  | nil => simp [messageLoop] at hrun
  | cons f₀ rest ih =>
    simp only [messageLoop, messageStep] at hrun
    cases h₀ : fieldExampleWith h mti M f₀ with
    | error e₀ =>
      simp only [h₀, Except.error.injEq] at hrun
      exact ⟨f₀, List.mem_cons_self f₀ rest, by rw [h₀, hrun]⟩
    | ok fi =>
      simp only [h₀] at hrun
      obtain ⟨f, hf, hfe⟩ := ih _ hrun
      exact ⟨f, List.mem_cons_of_mem f₀ hf, hfe⟩

theorem fieldToInterfaceWith_error (h : Heap) (mti : Message → Except Err Value) (f : Field)
    (e : Err) (hrun : fieldToInterfaceWith h mti f = .error e) :
    (f.Kind = .MessageKind ∨ f.Kind = .GroupKind) ∧
      ((f.Message = none ∧ e = .nilDeref) ∨ ∃ r, f.Message = some r ∧ mti (h r) = .error e) := by
  unfold fieldToInterfaceWith at hrun
  cases hk : f.Kind <;> simp only [hk] at hrun <;>
    first
      | exact absurd hrun (by simp)
      | (refine ⟨by simp, ?_⟩
         cases hm : f.Message with
         | none =>
           simp only [hm, Except.error.injEq] at hrun
           exact Or.inl ⟨rfl, hrun.symm⟩
         | some r =>
           simp only [hm] at hrun
           exact Or.inr ⟨r, rfl, hrun⟩)

theorem fieldExampleWith_error (h : Heap) (mti : Message → Except Err Value) (M : Message)
    (f : Field) (e : Err) (hrun : fieldExampleWith h mti M f = .error e) :
    fieldToInterfaceWith h mti f = .error e := by
  unfold fieldExampleWith at hrun
  by_cases hs : isSelfTyped h M f = true
  · cases hl : f.IsList <;> simp [hs, hl] at hrun
  · simp only [hs, Bool.false_eq_true, if_false] at hrun
    cases hl : f.IsList
    · cases hmp : f.IsMap
      · simpa [hl, hmp] using hrun
      · simp [hl, hmp] at hrun
    · simp only [hl, if_true] at hrun
      cases hit : fieldToInterfaceWith h mti f with
      | error e' =>
        simp only [hit, Except.error.injEq] at hrun
        rw [hrun]
      | ok item => simp [hit] at hrun

theorem messageToInterface_no_nilDeref (h : Heap) (hwf : WellFormed h) (fuel : Nat)
    (r : MsgRef) : messageToInterface h fuel (h r) ≠ .error .nilDeref := by
  induction fuel generalizing r with
  | zero => simp [messageToInterface]
  | succ n ih =>
    intro hrun
    simp only [messageToInterface] at hrun
    cases hloop : messageLoop h (messageToInterface h n) (h r) [] (h r).Fields with
    | ok st => simp [hloop] at hrun
    | error e =>
      simp only [hloop, Except.error.injEq] at hrun
      subst hrun
      obtain ⟨f, hf, hfe⟩ := messageLoop_error_from h _ (h r) _ _ _ hloop
      obtain ⟨hkind, hcase⟩ :=
        fieldToInterfaceWith_error h _ f _ (fieldExampleWith_error h _ (h r) f _ hfe)
      rcases hcase with ⟨hnone, _⟩ | ⟨r', _, hrec⟩
      · exact (hwf r f hf).2 hkind hnone
      · exact ih r' hrec

theorem fieldExampleWith_ok_recurses (h : Heap) (mti : Message → Except Err Value)
    (M : Message) (f : Field) (r : MsgRef) (fi : Value)
    (hself : isSelfTyped h M f = false)
    (hkind : f.Kind = .MessageKind ∨ f.Kind = .GroupKind) (hm : f.Message = some r)
    (hshape : f.IsList = true ∨ f.IsMap = false)
    (hrun : fieldExampleWith h mti M f = .ok fi) : ∃ x, mti (h r) = .ok x := by
  have hfti : fieldToInterfaceWith h mti f = mti (h r) := by
    unfold fieldToInterfaceWith
    rcases hkind with hk | hk <;> simp [hk, hm]
  unfold fieldExampleWith at hrun
  simp only [hself, Bool.false_eq_true, if_false, hfti] at hrun
  cases hrec : mti (h r) with
  | ok x => exact ⟨x, rfl⟩
  | error e =>
    exfalso
    cases hl : f.IsList
    · rcases hshape with hs | hs
      · rw [hl] at hs
        cases hs
      · simp [hl, hs, hrec] at hrun
    · simp [hl, hrec] at hrun

theorem messageToInterface_cycle (h : Heap) (a b : MsgRef) (fa fb : Field)
    (hfa : fa ∈ (h a).Fields) (hfb : fb ∈ (h b).Fields)
    (hma : fa.Message = some b) (hmb : fb.Message = some a)
    (hka : fa.Kind = .MessageKind ∨ fa.Kind = .GroupKind)
    (hkb : fb.Kind = .MessageKind ∨ fb.Kind = .GroupKind)
    (hsa : fa.IsList = true ∨ fa.IsMap = false) (hsb : fb.IsList = true ∨ fb.IsMap = false)
    (hne : (h a).FullName ≠ (h b).FullName) (fuel : Nat) :
    ∀ v : Value, messageToInterface h fuel (h a) ≠ .ok v ∧
      messageToInterface h fuel (h b) ≠ .ok v := by
  have hselfa : isSelfTyped h (h a) fa = false := by
    simp [isSelfTyped, hma, Ne.symm hne]
  have hselfb : isSelfTyped h (h b) fb = false := by
    simp [isSelfTyped, hmb, hne]
  induction fuel with
  | zero =>
    intro v
    simp [messageToInterface]
  | succ n ih =>
    intro v
    constructor
    · intro hrun
      simp only [messageToInterface] at hrun
      cases hloop : messageLoop h (messageToInterface h n) (h a) [] (h a).Fields with
      | error e => simp [hloop] at hrun
      | ok st =>
        obtain ⟨fi, hfi⟩ := messageLoop_ok_each h _ (h a) _ _ _ hloop fa hfa
        obtain ⟨x, hx⟩ :=
          fieldExampleWith_ok_recurses h _ (h a) fa b fi hselfa hka hma hsa hfi
        exact (ih x).2 hx
    · intro hrun
      simp only [messageToInterface] at hrun
      cases hloop : messageLoop h (messageToInterface h n) (h b) [] (h b).Fields with
      | error e => simp [hloop] at hrun
      | ok st =>
        obtain ⟨fi, hfi⟩ := messageLoop_ok_each h _ (h b) _ _ _ hloop fb hfb
        obtain ⟨x, hx⟩ :=
          fieldExampleWith_ok_recurses h _ (h b) fb a fi hselfb hkb hmb hsb hfi
        exact (ih x).1 hx

theorem wellFormed_pingHeap : WellFormed pingHeap := by
  intro r f hf
  cases r with
  | zero =>
    simp only [pingHeap, List.mem_singleton] at hf
    subst hf
    exact ⟨rfl, fun _ => by simp⟩
  | succ n =>
    simp only [pingHeap, List.mem_singleton] at hf
    subst hf
    exact ⟨rfl, fun _ => by simp⟩

/-- C18: in a well-formed schema where a message `A` has a field of message
type `B`, list-valued or singular and not a map, and `B` has such a field of
type `A`, with `A` and `B` of different names, neither `messageToInterface A`
nor `printMessage A` returns: at every recursion depth both are still
recursing. -/
theorem indirect_cycle_diverges (h : Heap) (a b : MsgRef) (fa fb : Field)
    (hwf : WellFormed h) (hfa : fa ∈ (h a).Fields) (hfb : fb ∈ (h b).Fields)
    (hma : fa.Message = some b) (hmb : fb.Message = some a)
    (hka : fa.Kind = .MessageKind ∨ fa.Kind = .GroupKind)
    (hkb : fb.Kind = .MessageKind ∨ fb.Kind = .GroupKind)
    (hsa : fa.IsList = true ∨ fa.IsMap = false) (hsb : fb.IsList = true ∨ fb.IsMap = false)
    (hne : (h a).FullName ≠ (h b).FullName) :
    (∀ fuel : Nat, messageToInterface h fuel (h a) = .error .outOfFuel) ∧
    (∀ (fuel : Nat) (g : GeneratedFile), printMessage h fuel g (h a) = .error .outOfFuel) := by
  constructor
  · intro fuel
    cases hrun : messageToInterface h fuel (h a) with
    | ok v =>
      exact absurd hrun
        (messageToInterface_cycle h a b fa fb hfa hfb hma hmb hka hkb hsa hsb hne fuel v).1
    | error e =>
      cases e with
      | outOfFuel => rfl
      | nilDeref => exact absurd hrun (messageToInterface_no_nilDeref h hwf fuel a)
  · intro fuel g
    have hxa : expandTarget h fa = some (h b) := by
      simp [expandTarget, hma, (hwf a fa hfa).1, Ne.symm hne]
    have hxb : expandTarget h fb = some (h a) := by
      simp [expandTarget, hmb, (hwf b fb hfb).1, hne]
    exact printMessage_cycle h (h a) (h b) fa fb hxa hfb hxb hfa fuel g

/-- C18 at `Ping{pong: Pong}`, `Pong{ping: Ping}`. -/
theorem indirect_cycle_diverges_witness :
    (∀ fuel : Nat, messageToInterface pingHeap fuel (pingHeap 0) = .error .outOfFuel) ∧
    (∀ (fuel : Nat) (g : GeneratedFile),
      printMessage pingHeap fuel g (pingHeap 0) = .error .outOfFuel) :=
  indirect_cycle_diverges pingHeap 0 1 pingPong pongPing wellFormed_pingHeap
    (by decide) (by decide) rfl rfl (Or.inl rfl) (Or.inl rfl) (Or.inr rfl) (Or.inr rfl)
    (by decide)

/-! ## Termination on schemas without indirect cycles -/

theorem messageLoop_total (h : Heap) (mti : Message → Except Err Value) (M : Message)
    (fs : List Field) (hall : ∀ f ∈ fs, ∃ fi, fieldExampleWith h mti M f = .ok fi) :
    ∀ st, ∃ st', messageLoop h mti M st fs = .ok st' := by
  induction fs with
  | nil =>
    intro st
    exact ⟨st, rfl⟩
  | cons f rest ih =>
    intro st
    obtain ⟨fi, hfi⟩ := hall f (List.mem_cons_self f rest)
    obtain ⟨st', hst'⟩ :=
      ih (fun f' hf' => hall f' (List.mem_cons_of_mem f hf')) (mapSet st f.JSONName fi)
    exact ⟨st', by simp [messageLoop, messageStep, hfi, hst']⟩

theorem fieldExampleWith_total (h : Heap) (mti : Message → Except Err Value) (M : Message)
    (f : Field)
    (hrec : isSelfTyped h M f = false → (f.Kind = .MessageKind ∨ f.Kind = .GroupKind) →
      ∃ r x, f.Message = some r ∧ mti (h r) = .ok x) :
    ∃ fi, fieldExampleWith h mti M f = .ok fi := by
  have hfti : isSelfTyped h M f = false → ∃ x, fieldToInterfaceWith h mti f = .ok x := by
    intro hself
    unfold fieldToInterfaceWith
    cases hk : f.Kind <;> simp only [hk] at hrec ⊢ <;>
      first
        | exact ⟨_, rfl⟩
        | (obtain ⟨r, x, hm, hx⟩ := hrec hself (by simp)
           exact ⟨x, by simp [hm, hx]⟩)
  unfold fieldExampleWith
  cases hself : isSelfTyped h M f
  · obtain ⟨x, hx⟩ := hfti hself
    cases hl : f.IsList
    · cases hmp : f.IsMap
      · exact ⟨x, by simp [hx]⟩
      · exact ⟨.map [], by simp⟩
    · exact ⟨.list [x], by simp [hx]⟩
  · cases hl : f.IsList
    · exact ⟨.map [], by simp⟩
    · exact ⟨.list [], by simp⟩

theorem messageToInterface_terminates (h : Heap) (rank : MsgRef → Nat)
    (hwf : WellFormed h) (hrank : RankedBy h rank) (fuel : Nat) :
    ∀ r : MsgRef, rank r < fuel → ∃ v, messageToInterface h fuel (h r) = .ok v := by
  induction fuel with
  | zero =>
    intro r hr
    exact absurd hr (Nat.not_lt_zero _)
  | succ n ih =>
    intro r hr
    have hall : ∀ f ∈ (h r).Fields,
        ∃ fi, fieldExampleWith h (messageToInterface h n) (h r) f = .ok fi := by
      intro f hf
      apply fieldExampleWith_total
      intro hself hkind
      cases hm : f.Message with
      | none => exact absurd hm ((hwf r f hf).2 hkind)
      | some r' =>
        have hne : (h r').FullName ≠ (h r).FullName := by
          simpa [isSelfTyped, hm] using hself
        have hlt : rank r' < n :=
          Nat.lt_of_lt_of_le (hrank r f r' hf hm hne) (Nat.le_of_lt_succ hr)
        obtain ⟨x, hx⟩ := ih r' hlt
        exact ⟨r', x, rfl, hx⟩
    obtain ⟨st, hst⟩ := messageLoop_total h _ (h r) (h r).Fields hall []
    exact ⟨.map st, by simp [messageToInterface, hst]⟩

theorem printSubMessageWith_total
    (pf : GeneratedFile → Nat → String → Field → Except Err GeneratedFile)
    (d : Nat) (p : String) (fs : List Field)
    (hall : ∀ f ∈ fs, ∀ g, ∃ g', pf g d p f = .ok g') :
    ∀ g, ∃ g', printSubMessageWith pf g d p fs = .ok g' := by
  induction fs with
  | nil =>
    intro g
    exact ⟨g, rfl⟩
  | cons f rest ih =>
    intro g
    obtain ⟨g₁, hg₁⟩ := hall f (List.mem_cons_self f rest) g
    obtain ⟨g₂, hg₂⟩ := ih (fun f' hf' => hall f' (List.mem_cons_of_mem f hf')) g₁
    exact ⟨g₂, by simp [printSubMessageWith, hg₁, hg₂]⟩

theorem printField_terminates (h : Heap) (rank : MsgRef → Nat)
    (hwf : WellFormed h) (hrank : RankedBy h rank) (n : Nat) :
    ∀ (r : MsgRef) (f : Field), f ∈ (h r).Fields → rank r ≤ n →
      ∀ (g : GeneratedFile) (d : Nat) (p : String),
        ∃ g', printField h (n + 1) g d p f = .ok g' := by
  induction n with
  | zero =>
    intro r f hf hr g d p
    simp only [printField]
    cases hm : f.Message with
    | none => exact ⟨g.P (fieldRow d p f), by simp [expandTarget, hm]⟩
    | some r' =>
      by_cases hne : (h r').FullName = (h f.Parent).FullName
      · exact ⟨g.P (fieldRow d p f), by simp [expandTarget, hm, hne]⟩
      · exfalso
        rw [(hwf r f hf).1] at hne
        have hlt := hrank r f r' hf hm hne
        omega
  | succ k ih =>
    intro r f hf hr g d p
    simp only [printField]
    cases hm : f.Message with
    | none => exact ⟨g.P (fieldRow d p f), by simp [expandTarget, hm]⟩
    | some r' =>
      by_cases hne : (h r').FullName = (h f.Parent).FullName
      · exact ⟨g.P (fieldRow d p f), by simp [expandTarget, hm, hne]⟩
      · have hx : expandTarget h f = some (h r') := by simp [expandTarget, hm, hne]
        rw [(hwf r f hf).1] at hne
        have hlt := hrank r f r' hf hm hne
        have hle : rank r' ≤ k := by omega
        simp only [hx]
        exact printSubMessageWith_total (printField h (k + 1)) (d + 1) f.JSONName
          (h r').Fields (fun c hc g₁ => ih r' c hc hle g₁ (d + 1) f.JSONName) _

theorem wellFormed_pathHeap : WellFormed pathHeap := by
  intro r f hf
  cases r with
  | zero =>
    simp only [pathHeap, List.mem_cons, List.mem_singleton, List.not_mem_nil, or_false] at hf
    rcases hf with hf | hf <;> subst hf
    · exact ⟨rfl, fun _ => by simp⟩
    · exact ⟨rfl, fun hk => by simp at hk⟩
  | succ n =>
    simp only [pathHeap, List.mem_cons, List.mem_singleton, List.not_mem_nil, or_false] at hf
    rcases hf with hf | hf <;> subst hf <;> exact ⟨rfl, fun hk => by simp at hk⟩

theorem rankedBy_pathHeap : RankedBy pathHeap pathRank := by
  intro r f r' hf hm hne
  cases r with
  | zero =>
    simp only [pathHeap, List.mem_cons, List.mem_singleton, List.not_mem_nil, or_false] at hf
    rcases hf with hf | hf <;> subst hf
    · simp only [Option.some.injEq] at hm
      subst hm
      decide
    · simp at hm
  | succ n =>
    simp only [pathHeap, List.mem_cons, List.mem_singleton, List.not_mem_nil, or_false] at hf
    rcases hf with hf | hf <;> subst hf <;> simp at hm

/-- C19: on a well-formed schema whose message-type graph has a rank that
decreases along every edge between messages of different names, that is, a
finite graph with no cycle other than edges from a type to itself,
`messageToInterface` and `printMessage` return a result, without failure, on
every message, as soon as the recursion depth exceeds the rank of the
message. -/
theorem traversals_terminate (h : Heap) (rank : MsgRef → Nat)
    (hwf : WellFormed h) (hrank : RankedBy h rank) (r : MsgRef) (fuel : Nat)
    (hfuel : rank r < fuel) :
    (∃ v, messageToInterface h fuel (h r) = .ok v) ∧
    (∀ g : GeneratedFile, ∃ g', printMessage h fuel g (h r) = .ok g') := by
  refine ⟨messageToInterface_terminates h rank hwf hrank fuel r hfuel, ?_⟩
  intro g
  cases fuel with
  | zero => exact absurd hfuel (Nat.not_lt_zero _)
  | succ n =>
    unfold printMessage
    exact printSubMessageWith_total (printField h (n + 1)) 0 "" (h r).Fields
      (fun f hf g₁ =>
        printField_terminates h rank hwf hrank n r f hf (Nat.le_of_lt_succ hfuel) g₁ 0 "") _

/-- C19 at `Path`, whose only edge leads to `Point`: both traversals return
at recursion depth 2. -/
theorem traversals_terminate_witness :
    (∃ v, messageToInterface pathHeap 2 (pathHeap 0) = .ok v) ∧
    (∀ g : GeneratedFile, ∃ g', printMessage pathHeap 2 g (pathHeap 0) = .ok g') :=
  traversals_terminate pathHeap pathRank wellFormed_pathHeap rankedBy_pathHeap 0 2
    (by decide)

/-! ## The shape of example trees -/

theorem entriesZeroShaped_mapSet (st : List (String × Value)) (k : String) (v : Value)
    (hst : Value.entriesZeroShaped st = true) (hv : v.isZeroShaped = true) :
    Value.entriesZeroShaped (mapSet st k v) = true := by
  induction st with
  | nil => simp [mapSet, Value.entriesZeroShaped, hv]
  | cons e rest ih =>
    obtain ⟨k', v'⟩ := e
    simp only [Value.entriesZeroShaped, Bool.and_eq_true] at hst
    by_cases hk : k' = k
    · simp [mapSet, hk, Value.entriesZeroShaped, hv, hst.2]
    · simp [mapSet, hk, Value.entriesZeroShaped, hst.1, ih hst.2]

theorem mem_mapSet (st : List (String × Value)) (k : String) (v : Value)
    (kv : String × Value) (hkv : kv ∈ mapSet st k v) : kv.1 = k ∨ kv ∈ st := by
  induction st with
  | nil =>
    simp only [mapSet, List.mem_singleton] at hkv
    exact Or.inl (by rw [hkv])
  | cons e rest ih =>
    obtain ⟨k', v'⟩ := e
    by_cases hk : k' = k
    · simp only [mapSet, hk, if_true, List.mem_cons] at hkv
      rcases hkv with hkv | hkv
      · exact Or.inl (by rw [hkv])
      · exact Or.inr (List.mem_cons_of_mem _ hkv)
    · simp only [mapSet, hk, if_false, List.mem_cons] at hkv
      rcases hkv with hkv | hkv
      · exact Or.inr (by rw [hkv]; exact List.mem_cons_self _ _)
      · rcases ih hkv with hh | hh
        · exact Or.inl hh
        · exact Or.inr (List.mem_cons_of_mem _ hh)

theorem mapGet_mapSet_some (st : List (String × Value)) (k k₂ : String) (v : Value)
    (hget : ∃ x, mapGet st k₂ = some x) : ∃ x, mapGet (mapSet st k v) k₂ = some x := by
  by_cases hk : k = k₂
  · subst hk
    exact ⟨v, mapGet_mapSet_self st k v⟩
  · rw [mapGet_mapSet_ne st k k₂ v hk]
    exact hget

theorem fieldExampleWith_zero_shaped (h : Heap) (mti : Message → Except Err Value)
    (M : Message) (f : Field) (fi : Value)
    (hmti : ∀ (m : Message) (x : Value), mti m = .ok x → x.isZeroShaped = true)
    (hrun : fieldExampleWith h mti M f = .ok fi) : fi.isZeroShaped = true := by
  have hfti : ∀ x, fieldToInterfaceWith h mti f = .ok x → x.isZeroShaped = true := by
    intro x hx
    unfold fieldToInterfaceWith at hx
    cases hk : f.Kind <;> simp only [hk] at hx <;>
      first
        | (simp only [Except.ok.injEq] at hx
           subst hx
           rfl)
        | (cases hm : f.Message with
           | none => simp [hm] at hx
           | some r =>
             simp only [hm] at hx
             exact hmti _ x hx)
  unfold fieldExampleWith at hrun
  cases hself : isSelfTyped h M f
  · simp only [hself, Bool.false_eq_true, if_false] at hrun
    cases hl : f.IsList
    · cases hmp : f.IsMap
      · simp only [hl, hmp, Bool.false_eq_true, if_false] at hrun
        exact hfti fi hrun
      · simp only [hl, hmp, Bool.false_eq_true, if_false, if_true, Except.ok.injEq] at hrun
        subst hrun
        rfl
    · simp only [hl, if_true] at hrun
      cases hit : fieldToInterfaceWith h mti f with
      | error e => simp [hit] at hrun
      | ok item =>
        simp only [hit, Except.ok.injEq] at hrun
        subst hrun
        simp [Value.isZeroShaped, Value.allZeroShaped, hfti item hit]
  · simp only [hself, if_true] at hrun
    cases hl : f.IsList
    · simp only [hl, Bool.false_eq_true, if_false, Except.ok.injEq] at hrun
      subst hrun
      rfl
    · simp only [hl, if_true, Except.ok.injEq] at hrun
      subst hrun
      rfl

theorem messageLoop_shape (h : Heap) (mti : Message → Except Err Value) (M : Message)
    (hmti : ∀ (m : Message) (x : Value), mti m = .ok x → x.isZeroShaped = true)
    (fs : List Field) (st st' : List (String × Value))
    (hrun : messageLoop h mti M st fs = .ok st') (hst : Value.entriesZeroShaped st = true) :
    Value.entriesZeroShaped st' = true ∧
    (∀ kv ∈ st', kv ∈ st ∨ ∃ f ∈ fs, kv.1 = f.JSONName) ∧
    (∀ k, (∃ x, mapGet st k = some x) → ∃ x, mapGet st' k = some x) ∧
    (∀ f ∈ fs, ∃ x, mapGet st' f.JSONName = some x) := by
  induction fs generalizing st with
  | nil =>
    simp only [messageLoop, Except.ok.injEq] at hrun
    subst hrun
    exact ⟨hst, fun kv hkv => Or.inl hkv, fun _ hk => hk, by simp⟩
  | cons f₀ rest ih =>
    simp only [messageLoop, messageStep] at hrun
    cases h₀ : fieldExampleWith h mti M f₀ with
    | error e => simp [h₀] at hrun
    | ok fi =>
      simp only [h₀] at hrun
      have hfi := fieldExampleWith_zero_shaped h mti M f₀ fi hmti h₀
      obtain ⟨hshape, hkeys, hkeep, hall⟩ :=
        ih _ hrun (entriesZeroShaped_mapSet st f₀.JSONName fi hst hfi)
      refine ⟨hshape, ?_, ?_, ?_⟩
      · intro kv hkv
        rcases hkeys kv hkv with hin | ⟨f, hf, hname⟩
        · rcases mem_mapSet st f₀.JSONName fi kv hin with hk | hk
          · exact Or.inr ⟨f₀, List.mem_cons_self f₀ rest, hk⟩
          · exact Or.inl hk
        · exact Or.inr ⟨f, List.mem_cons_of_mem f₀ hf, hname⟩
      · intro k hk
        exact hkeep k (mapGet_mapSet_some st f₀.JSONName k fi hk)
      · intro f hf
        rcases List.mem_cons.mp hf with heq | hmem
        · subst heq
          exact hkeep f.JSONName ⟨fi, mapGet_mapSet_self st f.JSONName fi⟩
        · exact hall f hmem

/-- C20: when `messageToInterface M` returns, the result is a mapping; the
key of every entry is the JSON name of a field of `M` and every field's JSON
name is a key; and throughout the tree every list has at most one element and
every scalar leaf is `false`, the integer `0`, the float `0.0` or the empty
string. -/
theorem messageToInterface_zero_shaped (h : Heap) (fuel : Nat) (M : Message) (v : Value)
    (hrun : messageToInterface h fuel M = .ok v) :
    ∃ st, v = .map st ∧
      (∀ kv ∈ st, ∃ f ∈ M.Fields, kv.1 = f.JSONName) ∧
      (∀ f ∈ M.Fields, ∃ x, mapGet st f.JSONName = some x) ∧
      v.isZeroShaped = true := by
  induction fuel generalizing M v with
  | zero => simp [messageToInterface] at hrun
  | succ n ih =>
    simp only [messageToInterface] at hrun
    cases hloop : messageLoop h (messageToInterface h n) M [] M.Fields with
    | error e => simp [hloop] at hrun
    | ok st =>
      simp only [hloop, Except.ok.injEq] at hrun
      subst hrun
      obtain ⟨hshape, hkeys, _, hall⟩ :=
        messageLoop_shape h (messageToInterface h n) M
          (fun m x hx => by
            obtain ⟨_, _, _, _, hz⟩ := ih m x hx
            exact hz)
          M.Fields [] st hloop rfl
      refine ⟨st, rfl, ?_, hall, ?_⟩
      · intro kv hkv
        rcases hkeys kv hkv with hin | hf
        · simp at hin
        · exact hf
      · simpa [Value.isZeroShaped] using hshape

/-- C20 at `Path`: the example `{points: [{x: 0, y: 0}], tags: [""]}` has
the keys `points` and `tags`, one-element lists and zero leaves. -/
theorem messageToInterface_zero_shaped_witness :
    ∃ st, Value.map [("points", .list [.map [("x", .int 0), ("y", .int 0)]]),
        ("tags", .list [.string ""])] = .map st ∧
      (∀ kv ∈ st, ∃ f ∈ (pathHeap 0).Fields, kv.1 = f.JSONName) ∧
      (∀ f ∈ (pathHeap 0).Fields, ∃ x, mapGet st f.JSONName = some x) ∧
      (Value.map [("points", .list [.map [("x", .int 0), ("y", .int 0)]]),
        ("tags", .list [.string ""])]).isZeroShaped = true :=
  messageToInterface_zero_shaped pathHeap 2 (pathHeap 0) _ rfl

/-! ## Leading comments are joined into one line -/

theorem splitLines_no_line_break (s : List Char) : ∀ l ∈ splitLines s, '\n' ∉ l := by
  induction s with
  | nil => simp [splitLines]
  | cons c cs ih =>
    by_cases hc : c = '\n'
    · simp only [splitLines, hc, if_true, List.mem_cons]
      intro l hl
      rcases hl with hl | hl
      · simp [hl]
      · exact ih l hl
    · simp only [splitLines, hc, if_false]
      cases hsp : splitLines cs with
      | nil => simpa using Ne.symm hc
      | cons l ls =>
        rw [hsp] at ih
        intro l' hl'
        simp only [List.mem_cons] at hl'
        rcases hl' with hl' | hl'
        · subst hl'
          simp only [List.mem_cons, not_or]
          exact ⟨Ne.symm hc, ih l (List.mem_cons_self l ls)⟩
        · exact ih l' (List.mem_cons_of_mem l hl')

theorem mem_of_mem_trimChars (cut s : List Char) (x : Char) (hx : x ∈ trimChars cut s) :
    x ∈ s := by
  unfold trimChars at hx
  rw [List.mem_reverse] at hx
  have h₁ := (List.dropWhile_sublist _).mem hx
  rw [List.mem_reverse] at h₁
  exact (List.dropWhile_sublist _).mem h₁

theorem joinWith_no_line_break (ls : List (List Char)) (hls : ∀ l ∈ ls, '\n' ∉ l) :
    '\n' ∉ joinWith [' '] ls := by
  induction ls with
  | nil => simp [joinWith]
  | cons l rest ih =>
    cases rest with
    | nil => simpa [joinWith] using hls l (List.mem_cons_self l [])
    | cons l' ls' =>
      simp only [joinWith, List.mem_append, not_or]
      refine ⟨⟨hls l (List.mem_cons_self _ _), by decide⟩, ?_⟩
      exact ih (fun x hx => hls x (List.mem_cons_of_mem l hx))

theorem getCompactComment_leading_single_line (c : CommentSet) (ht : c.Trailing = "") :
    '\n' ∉ (getCompactComment c).data := by
  unfold getCompactComment
  simp only [ht]
  have hempty : trimChars cutset (Comments.String "").data = [] := by decide
  rw [hempty, List.append_nil]
  apply joinWith_no_line_break
  intro l hl
  obtain ⟨l₀, hl₀, rfl⟩ := List.mem_map.mp hl
  intro hmem
  exact splitLines_no_line_break _ l₀ hl₀ (mem_of_mem_trimChars cutset l₀ '\n' hmem)

end ApiDoc
